import Mathlib

/-!
Verification of the prepyrus citation verification and processing tool.

The development shallowly embeds the core of the tool: the bibliography entry
model, the citation extractor, the citation resolver, the disambiguation
engine, the style renderer, and the document/index assemblers.  Rust machine
integers are modelled as `Int`/`Nat`; fallible operations (`unwrap` on missing
data, `process::exit` on errors) are modelled with `Option`/`Except`; strings
are Lean `String`s manipulated through their character lists.
-/

namespace Prepyrus

/-- A person as parsed from the bibliography; `name` is the surname and
`given_name` the given name(s) (mirrors `biblatex::Person`). -/
structure Person where
  name : String
  given_name : String
deriving DecidableEq, Repr

/-- Bibliography entry types (`biblatex::EntryType`); prepyrus renders only
books and articles, other types are skipped. -/
inductive EntryType
  | book
  | article
  | other
deriving DecidableEq, Repr

/-- The value of a typed date (`biblatex::DateValue`): an exact point, a
bound, or a range.  Only the year components are used by prepyrus. -/
inductive DateValue
  | atYear (y : Int)
  | afterYear (y : Int)
  | beforeYear (y : Int)
  | between (y1 y2 : Int)
deriving DecidableEq, Repr

/-- A `biblatex::PermissiveType<T>`: either a typed value or raw chunks. -/
inductive PermissiveType (α : Type)
  | typed (v : α)
  | chunks
deriving DecidableEq, Repr

/-- A chunk of formatted text (`biblatex::Chunk`); the extractors keep only
`normal` chunks. -/
inductive Chunk
  | normal (s : String)
  | verbatim (s : String)
  | math (s : String)
deriving DecidableEq, Repr

/-- An integer range, modelling `std::ops::Range<u32>` as used for page
ranges; `stop` stands for the Rust field `end` (a Lean keyword). -/
structure PageRange where
  start : Nat
  stop : Nat
deriving DecidableEq, Repr

/-- A bibliography entry (`biblatex::Entry`).  The field accessors of the
Rust biblatex library (`author()`, `date()`, `title()`, …) return values that
may be absent or malformed; an absent/malformed field is modelled as `none`,
and `unwrap()` on such a field as a panic outcome of the caller. -/
structure Entry where
  key : String
  entry_type : EntryType
  author : Option (List Person)
  date : Option (PermissiveType DateValue)
  title : Option (List Chunk)
  publisher : Option (List (List Chunk))
  address : Option (List Chunk)
  journal : Option (List Chunk)
  volume : Option (PermissiveType Int)
  number : Option (List Chunk)
  pages : Option (PermissiveType (List PageRange))
  translator : Option (List Person)
  doi : Option String
deriving DecidableEq, Repr

/-! ### BiblatexUtils (src/utils.rs) -/

/-- `BiblatexUtils::extract_year_from_date`: the year of a typed date, or an
error message for an untyped one. -/
def extract_year_from_date (date : PermissiveType DateValue) (reference : String) :
    Except String Int :=
  match date with
  | .typed d =>
    match d with
    | .atYear y => .ok y
    | .afterYear y => .ok y
    | .beforeYear y => .ok y
    | .between y1 _ => .ok y1
  | .chunks => .error ("Unable to retrieve year for: " ++ reference)

/-- `BiblatexUtils::extract_volume`. -/
def extract_volume (volume : PermissiveType Int) : Int :=
  match volume with
  | .typed v => v
  | .chunks => 0

/-- `BiblatexUtils::extract_pages`: typed page ranges are printed as
`start–stop` runs, anything else renders as the empty string. -/
def extract_pages (pages : PermissiveType (List PageRange)) : String :=
  match pages with
  | .typed ps => ps.foldl (fun acc p => acc ++ toString p.start ++ "–" ++ toString p.stop) ""
  | .chunks => ""

/-- `BiblatexUtils::extract_spanned_chunk`: concatenate the normal chunks. -/
def extract_spanned_chunk (chunks : List Chunk) : String :=
  (chunks.filterMap (fun c => match c with | .normal s => some s | _ => none)).foldl
    (fun acc s => acc ++ s) ""

/-- `BiblatexUtils::extract_publisher`: concatenate the normal chunks of all
inner chunk vectors in order (the Rust `flat_map` + `collect`). -/
def extract_publisher (publisher_data : List (List Chunk)) : String :=
  extract_spanned_chunk publisher_data.flatten

/-! ### Citation data (src/validators.rs) -/

/-- A raw citation bound to a bibliography entry
(`validators::MatchedCitation`). -/
structure MatchedCitation where
  citation_raw : String
  entry : Entry
deriving DecidableEq, Repr

/-- A matched citation together with its disambiguated display form and
disambiguated year (`validators::MatchedCitationDisambiguated`, with the
`year_disambiguated` field as constructed and consumed in
src/transformers.rs). -/
structure MatchedCitationDisambiguated where
  citation_raw : String
  citation_author_date_disambiguated : String
  year_disambiguated : String
  entry : Entry
deriving DecidableEq, Repr

/-! ### String helpers

Rust string primitives are modelled on the character list of a `String`; the
inputs exercised by prepyrus are ASCII, where these agree with the Unicode
behaviour of the Rust originals. -/

/-- Rust `str::trim` on a character list. -/
def trimChars (cs : List Char) : List Char :=
  ((cs.dropWhile Char.isWhitespace).reverse.dropWhile Char.isWhitespace).reverse

/-- Rust `str::trim`. -/
def trimString (s : String) : String :=
  String.mk (trimChars s.data)

/-- The text before the first comma: `s.split(',').next().unwrap()`, also
`s.splitn(2, ',').next()`. -/
def takeBeforeComma (cs : List Char) : List Char :=
  cs.takeWhile (fun c => c ≠ ',')

/-- Rust `str::starts_with('@')` for the citation key test. -/
def startsWithAt (s : String) : Bool :=
  s.data.head? == some '@'

/-- An `i32` year rendered by `format!` (both `{}` and `{:?}` print an `i32`
as plain decimal digits, with a `-` sign if negative). -/
def yearToString (y : Int) : String := toString y

/-! ### Citation resolver (src/validators.rs, `match_citations_to_bibliography`) -/

/-- One probe of the inner bibliography loop: does `entry` match `citation`?
`none` models a panic: an `unwrap` failing because the entry lacks author or
typed date data while an author-year citation is being matched.  For a
`@`-key citation only the entry key is read. -/
def entryMatch (citation : String) (entry : Entry) : Option Bool :=
  if startsWithAt citation then
    -- `citation.split(',').next().unwrap().trim()`, then `[1..]` drops the `@`
    let citation_key := trimChars (takeBeforeComma citation.data)
    let citation_key := String.mk citation_key.tail
    some (entry.key == citation_key)
  else do
    let author ← entry.author
    let a0 ← author.head?
    let date ← entry.date
    let year ← (extract_year_from_date date citation).toOption
    some (citation == a0.name ++ " " ++ yearToString year)

/-- Scan the bibliography for `citation`: `none` models a panic before any
verdict; `some (some e)` means `e` is the first matching entry in iteration
order and the scan stopped there; `some none` means the whole bibliography
was scanned without a match. -/
def scanBibliography (citation : String) : List Entry → Option (Option Entry)
  | [] => some none
  | e :: rest =>
    match entryMatch citation e with
    | none => none
    | some true => some (some e)
    | some false => scanBibliography citation rest

/-- Result of `match_citations_to_bibliography`: a panic (`unwrap` on an
entry without author/date data), the aggregate unmatched-citations error, or
the matched list. -/
inductive MatchResult
  | panicked
  | unmatched (citations : List String)
  | ok (matched : List MatchedCitation)
deriving DecidableEq, Repr

/-- The citation loop: `unmatched` starts as a copy of all citations and every
match removes (`retain`) the matched citation from it while pushing a
`MatchedCitation`. -/
def matchLoop (bibliography : List Entry) :
    List String → List String → List MatchedCitation →
    Option (List String × List MatchedCitation)
  | [], unmatched, matched => some (unmatched, matched)
  | c :: rest, unmatched, matched =>
    match scanBibliography c bibliography with
    | none => none
    | some none => matchLoop bibliography rest unmatched matched
    | some (some e) =>
        matchLoop bibliography rest (unmatched.filter (fun x => x ≠ c))
          (matched ++ [⟨c, e⟩])

/-- `validators::match_citations_to_bibliography`. -/
def match_citations_to_bibliography (citations : List String)
    (bibliography : List Entry) : MatchResult :=
  match matchLoop bibliography citations citations [] with
  | none => .panicked
  | some (unmatched, matched) =>
    if unmatched.length > 0 then .unmatched unmatched else .ok matched

/-- The pure matching relation used to state specifications: `entry` matches
`citation` and probing it does not panic. -/
def citationMatches (citation : String) (entry : Entry) : Bool :=
  entryMatch citation entry == some true

/-! ### Resolver lemmas -/

theorem scanBibliography_safe_eq_find (citation : String) :
    ∀ bibliography : List Entry, scanBibliography citation bibliography ≠ none →
      scanBibliography citation bibliography =
        some (bibliography.find? (citationMatches citation))
  | [], _ => rfl
  | e :: rest, h => by
    cases hm : entryMatch citation e with
    | none => exact absurd (by simp [scanBibliography, hm]) h
    | some b =>
      cases b with
      | true =>
        have hp : citationMatches citation e = true := by simp [citationMatches, hm]
        simp [scanBibliography, hm, List.find?_cons_of_pos _ hp]
      | false =>
        have hp : ¬ citationMatches citation e = true := by simp [citationMatches, hm]
        have hrec : scanBibliography citation rest ≠ none := by
          intro hcon
          exact absurd (by simp [scanBibliography, hm, hcon]) h
        simp [scanBibliography, hm, List.find?_cons_of_neg _ hp,
          scanBibliography_safe_eq_find citation rest hrec]

theorem matchLoop_spec (bibliography : List Entry) :
    ∀ (cs u : List String) (m : List MatchedCitation),
      (∀ c ∈ cs, scanBibliography c bibliography ≠ none) →
      matchLoop bibliography cs u m =
        some
          (u.filter (fun x =>
            !(decide (x ∈ cs) && (bibliography.find? (citationMatches x)).isSome)),
           m ++ cs.filterMap (fun c =>
            (bibliography.find? (citationMatches c)).map
              (fun e => (⟨c, e⟩ : MatchedCitation))))
  | [], u, m, _ => by simp [matchLoop]
  | c :: rest, u, m, hsafe => by
    have hc := scanBibliography_safe_eq_find c bibliography
      (hsafe c (List.mem_cons_self c rest))
    have hrestsafe : ∀ x ∈ rest, scanBibliography x bibliography ≠ none :=
      fun x hx => hsafe x (List.mem_cons.mpr (Or.inr hx))
    cases hfind : bibliography.find? (citationMatches c) with
    | none =>
      have hcn : scanBibliography c bibliography = some none := by rw [hc, hfind]
      rw [show matchLoop bibliography (c :: rest) u m =
          (match scanBibliography c bibliography with
           | none => none
           | some none => matchLoop bibliography rest u m
           | some (some e) =>
               matchLoop bibliography rest (u.filter (fun x => x ≠ c))
                 (m ++ [⟨c, e⟩])) from rfl, hcn]
      rw [matchLoop_spec bibliography rest u m hrestsafe]
      have hfeq : (u.filter (fun x =>
          !(decide (x ∈ rest) && (bibliography.find? (citationMatches x)).isSome))) =
          (u.filter (fun x =>
          !(decide (x ∈ c :: rest) && (bibliography.find? (citationMatches x)).isSome))) := by
        apply List.filter_congr
        intro x _
        by_cases hxc : x = c
        · subst hxc
          rw [hfind]
          simp
        · simp [List.mem_cons, hxc]
      rw [hfeq]
      have hmeq : ((c :: rest).filterMap (fun c =>
          (bibliography.find? (citationMatches c)).map
            (fun e => (⟨c, e⟩ : MatchedCitation)))) =
          (rest.filterMap (fun c =>
          (bibliography.find? (citationMatches c)).map
            (fun e => (⟨c, e⟩ : MatchedCitation)))) := by
        rw [List.filterMap_cons, hfind]
        rfl
      rw [hmeq]
    | some e =>
      have hcn : scanBibliography c bibliography = some (some e) := by rw [hc, hfind]
      rw [show matchLoop bibliography (c :: rest) u m =
          (match scanBibliography c bibliography with
           | none => none
           | some none => matchLoop bibliography rest u m
           | some (some e) =>
               matchLoop bibliography rest (u.filter (fun x => x ≠ c))
                 (m ++ [⟨c, e⟩])) from rfl, hcn]
      show matchLoop bibliography rest (u.filter (fun x => x ≠ c)) (m ++ [⟨c, e⟩]) =
        some (u.filter (fun x =>
            !(decide (x ∈ c :: rest) && (bibliography.find? (citationMatches x)).isSome)),
          m ++ (c :: rest).filterMap (fun c =>
            (bibliography.find? (citationMatches c)).map
              (fun e => (⟨c, e⟩ : MatchedCitation))))
      rw [matchLoop_spec bibliography rest (u.filter (fun x => x ≠ c))
        (m ++ [(⟨c, e⟩ : MatchedCitation)]) hrestsafe]
      have hfeq : ((u.filter (fun x => x ≠ c)).filter (fun x =>
          !(decide (x ∈ rest) && (bibliography.find? (citationMatches x)).isSome))) =
          (u.filter (fun x =>
          !(decide (x ∈ c :: rest) && (bibliography.find? (citationMatches x)).isSome))) := by
        rw [List.filter_filter]
        apply List.filter_congr
        intro x _
        by_cases hxc : x = c
        · subst hxc
          rw [hfind]
          simp
        · simp [List.mem_cons, hxc]
      rw [hfeq]
      have hmeq : ((c :: rest).filterMap (fun c =>
          (bibliography.find? (citationMatches c)).map
            (fun e => (⟨c, e⟩ : MatchedCitation)))) =
          (⟨c, e⟩ :: rest.filterMap (fun c =>
          (bibliography.find? (citationMatches c)).map
            (fun e => (⟨c, e⟩ : MatchedCitation))) : List MatchedCitation) := by
        rw [List.filterMap_cons, hfind]
        rfl
      rw [hmeq, List.append_cons, List.append_assoc]
      simp

/-- Claim C2: on a de-duplicated citation list, when no bibliography entry
evaluated during the scan lacks author or typed date data (no per-citation
scan panics), `match_citations_to_bibliography` returns one `MatchedCitation`
per raw citation bound to the first matching entry in bibliography iteration
order (`List.find?`, key equality for `@`-form citations and exact
`"{surname} {year}"` equality with the year printed as a plain integer
otherwise, the scan stopping at the first match), and when one or more
citations match no entry it instead returns the single aggregate
`unmatched` error naming every unmatched citation, produced only after all
citations were attempted. -/
theorem c2_match_citations_first_match_or_aggregate_error
    (citations : List String) (bibliography : List Entry)
    (hnodup : citations.Nodup)
    (hsafe : ∀ c ∈ citations, scanBibliography c bibliography ≠ none) :
    match_citations_to_bibliography citations bibliography =
      (if (citations.filter
            (fun c => (bibliography.find? (citationMatches c)).isNone)).isEmpty
       then .ok (citations.filterMap (fun c =>
         (bibliography.find? (citationMatches c)).map
           (fun e => (⟨c, e⟩ : MatchedCitation))))
       else .unmatched (citations.filter
         (fun c => (bibliography.find? (citationMatches c)).isNone))) := by
  have _ := hnodup
  unfold match_citations_to_bibliography
  rw [matchLoop_spec bibliography citations citations [] hsafe]
  have hfeq : (citations.filter (fun x =>
      !(decide (x ∈ citations) && (bibliography.find? (citationMatches x)).isSome))) =
      (citations.filter
        (fun c => (bibliography.find? (citationMatches c)).isNone)) := by
    apply List.filter_congr
    intro x hx
    cases hf : bibliography.find? (citationMatches x) with
    | none => simp [hx, hf]
    | some e => simp [hx, hf]
  rw [hfeq]
  simp only [List.nil_append]
  cases hU : citations.filter
      (fun c => (bibliography.find? (citationMatches c)).isNone) with
  | nil => simp
  | cons u us => simp

/-- A small bibliography used by the witness of claim C2. -/
def c2SampleBib : List Entry :=
  [{ key := "k1", entry_type := .book,
     author := some [{ name := "Hegel", given_name := "Georg" }],
     date := some (.typed (.atYear 1931)), title := none, publisher := none,
     address := none, journal := none, volume := none, number := none,
     pages := none, translator := none, doi := none }]

/-- Witness for claim C2 at a concrete input: one matching key citation and
one author-year citation with no matching entry produce the aggregate
unmatched error. -/
theorem c2_match_citations_first_match_or_aggregate_error_witness :
    match_citations_to_bibliography ["@k1", "Nobody 1900"] c2SampleBib =
      (if ((["@k1", "Nobody 1900"] : List String).filter
            (fun c => (c2SampleBib.find? (citationMatches c)).isNone)).isEmpty
       then .ok ((["@k1", "Nobody 1900"] : List String).filterMap (fun c =>
         (c2SampleBib.find? (citationMatches c)).map
           (fun e => (⟨c, e⟩ : MatchedCitation))))
       else .unmatched ((["@k1", "Nobody 1900"] : List String).filter
         (fun c => (c2SampleBib.find? (citationMatches c)).isNone))) :=
  c2_match_citations_first_match_or_aggregate_error ["@k1", "Nobody 1900"]
    c2SampleBib (by decide) (by decide)

theorem entryMatch_key_isSome {c : String} (h : startsWithAt c = true) (e : Entry) :
    ∃ b, entryMatch c e = some b := by
  rw [entryMatch, if_pos h]
  exact ⟨_, rfl⟩

theorem scanBibliography_key_ne_none {c : String} (h : startsWithAt c = true) :
    ∀ bib : List Entry, scanBibliography c bib ≠ none
  | [] => by simp [scanBibliography]
  | e :: rest => by
    obtain ⟨b, hb⟩ := entryMatch_key_isSome h e
    cases b with
    | true => simp [scanBibliography, hb]
    | false =>
      simpa [scanBibliography, hb] using scanBibliography_key_ne_none h rest

/-- Claim C9: while matching a raw citation in explicit-key form (starting
with `@`) the scan never reads any entry's author or date fields, so for a
list of key-form citations `match_citations_to_bibliography` can never hit
the unwrap-style panic, whatever the bibliography — even one whose entries
all lack author and date data. -/
theorem c9_key_citations_never_panic (citations : List String)
    (bibliography : List Entry)
    (hkeys : ∀ c ∈ citations, startsWithAt c = true) :
    match_citations_to_bibliography citations bibliography ≠ .panicked := by
  have hsafe : ∀ c ∈ citations, scanBibliography c bibliography ≠ none :=
    fun c hc => scanBibliography_key_ne_none (hkeys c hc) bibliography
  unfold match_citations_to_bibliography
  rw [matchLoop_spec bibliography citations citations [] hsafe]
  show ¬ (if (citations.filter (fun x =>
      !(decide (x ∈ citations) &&
        (bibliography.find? (citationMatches x)).isSome))).length > 0
    then MatchResult.unmatched (citations.filter (fun x =>
      !(decide (x ∈ citations) &&
        (bibliography.find? (citationMatches x)).isSome)))
    else MatchResult.ok (([] : List MatchedCitation) ++
      citations.filterMap (fun c =>
        (bibliography.find? (citationMatches c)).map
          (fun e => (⟨c, e⟩ : MatchedCitation))))) = MatchResult.panicked
  split
  · exact fun hcon => MatchResult.noConfusion hcon
  · exact fun hcon => MatchResult.noConfusion hcon

/-- Witness for claim C9 at a concrete input: a key citation scanned against
an entry with no author and no date data does not panic. -/
theorem c9_key_citations_never_panic_witness :
    match_citations_to_bibliography ["@hegel1931"]
      [{ key := "other", entry_type := .book, author := none, date := none,
         title := none, publisher := none, address := none, journal := none,
         volume := none, number := none, pages := none, translator := none,
         doi := none }] ≠ .panicked :=
  c9_key_citations_never_panic ["@hegel1931"] _ (by decide)

/-! ### Disambiguation engine (src/transformers.rs) -/

/-- `transformers::extract_date`: the year of the entry, panicking (`none`)
when the date is absent or untyped. -/
def extract_date (entry : Entry) : Option Int := do
  let date ← entry.date
  (extract_year_from_date date entry.key).toOption

/-- `transformers::format_authors`, Chicago style author list; indexing
`author[0]` on an empty vector panics (`none`). -/
def format_authors : List Person → Option String
  | [] => none
  | [a] => some (a.name ++ ", " ++ a.given_name ++ ". ")
  | [a, b] =>
      some (a.name ++ ", " ++ a.given_name ++ " and " ++ b.given_name ++ " " ++ b.name ++ ". ")
  | a :: _ :: _ :: _ => some (a.name ++ ", " ++ a.given_name ++ " et al. ")

/-- The suffix letter `char::from(b'a' + index as u8)`; the `as u8` cast and
release-mode addition wrap modulo 256 (groups beyond 26 entries are left
unspecified by the source). -/
def suffixLetter (index : Nat) : Char :=
  Char.ofNat ((97 + index % 256) % 256)

/-- `transformers::create_disambiguated_citation`:
`format!("{} {}{}", format_authors(author), year, letter)`. -/
def create_disambiguated_citation (letter : Char) (entry : Entry) : Option String := do
  let authors ← entry.author
  let author ← format_authors authors
  let year ← extract_date entry
  some (author ++ " " ++ yearToString year ++ String.mk [letter])

/-- `transformers::create_disambiguated_year`: `format!("{}{}", year, letter)`. -/
def create_disambiguated_year (letter : Char) (entry : Entry) : Option String := do
  let year ← extract_date entry
  some (yearToString year ++ String.mk [letter])

/-- `transformers::create_standard_citation`: a `@`-key citation is rewritten
to `"{surname} {year}"`, anything else is returned unchanged. -/
def create_standard_citation (raw_citation : String) (entry : Entry) : Option String :=
  if startsWithAt raw_citation then do
    let authors ← entry.author
    let a0 ← authors.head?
    let date ← entry.date
    let year ← (extract_year_from_date date entry.key).toOption
    some (a0.name ++ " " ++ yearToString year)
  else some raw_citation

/-- The grouping key `format!("{}-{}", author_last_name, year)` computed at
the top of `disambiguate_matched_citations`; `none` models the panics of the
`unwrap`s and of `author[0]`. -/
def author_year_key (mc : MatchedCitation) : Option String := do
  let authors ← mc.entry.author
  let a0 ← authors.head?
  let date ← mc.entry.date
  let year ← (extract_year_from_date date mc.entry.key).toOption
  some (a0.name ++ "-" ++ yearToString year)

/-- `HashMap::entry(key).or_insert_with(Vec::new).push(citation)` on an
association list kept in key insertion order.  (Rust's `HashMap` iterates in
an unspecified order; the maps later built from the groups are insensitive to
that order because distinct groups hold citations with distinct raw strings
whenever the input raw strings are distinct, which the pipeline guarantees by
de-duplicating citations first.) -/
def insertGroup (key : String) (mc : MatchedCitation) :
    List (String × List MatchedCitation) → List (String × List MatchedCitation)
  | [] => [(key, [mc])]
  | (k, g) :: rest =>
    if k = key then (k, g ++ [mc]) :: rest else (k, g) :: insertGroup key mc rest

/-- The grouping loop of `disambiguate_matched_citations`. -/
def buildGroupsAux : List (String × List MatchedCitation) → List MatchedCitation →
    Option (List (String × List MatchedCitation))
  | acc, [] => some acc
  | acc, mc :: rest => do
    let k ← author_year_key mc
    buildGroupsAux (insertGroup k mc acc) rest

/-- Group matched citations by author-surname + year. -/
def buildGroups (citations : List MatchedCitation) :
    Option (List (String × List MatchedCitation)) :=
  buildGroupsAux [] citations

/-- Stable insertion step: `a` goes after every element `b` with `le b a`.
Together with `stableSortBy` this models Rust's stable `slice::sort_by`
(equal elements keep their input order). -/
def insertLe (le : α → α → Bool) (a : α) : List α → List α
  | [] => [a]
  | b :: rest => if le b a then b :: insertLe le a rest else a :: b :: rest

/-- Stable sort by the total preorder `le`, modelling `slice::sort_by`. -/
def stableSortBy (le : α → α → Bool) (l : List α) : List α :=
  l.foldl (fun acc a => insertLe le a acc) []

/-- Lexicographic order on character lists; agrees with Rust's byte-wise
`str::cmp` (UTF-8 byte order coincides with code point order). -/
def charListLe : List Char → List Char → Bool
  | [], _ => true
  | _ :: _, [] => false
  | a :: as1, b :: bs => if a = b then charListLe as1 bs else decide (a < b)

/-- Rust `String::cmp` as a boolean `≤`. -/
def stringLe (a b : String) : Bool :=
  charListLe a.data b.data

/-- The comparator `a.entry.key.cmp(&b.entry.key)` as a boolean preorder. -/
def entryKeyLe (a b : MatchedCitation) : Bool :=
  stringLe a.entry.key b.entry.key

/-- A `HashMap<String, String>` modelled as an insertion list: `insert`
prepends and lookup takes the most recent binding. -/
def mapInsert (m : List (String × String)) (k v : String) : List (String × String) :=
  (k, v) :: m

/-- Lookup in the insertion-list map model. -/
def mapGet (m : List (String × String)) (k : String) : Option String :=
  (m.find? (fun p => p.1 == k)).map (fun p => p.2)

/-- The `for (index, citation) in sorted_citations.iter().enumerate()` loop of
the needs-disambiguation branch: assign `'a' + index` to each citation of the
sorted group, filling both maps. -/
def assignGroup :
    Nat → List MatchedCitation → List (String × String) → List (String × String) →
    Option (List (String × String) × List (String × String))
  | _, [], cmap, ymap => some (cmap, ymap)
  | index, mc :: rest, cmap, ymap => do
    let letter := suffixLetter index
    let dis ← create_disambiguated_citation letter mc.entry
    let dy ← create_disambiguated_year letter mc.entry
    assignGroup (index + 1) rest (mapInsert cmap mc.citation_raw dis)
      (mapInsert ymap mc.citation_raw dy)

/-- Process one author-year group: more than one citation sorts the group by
entry key and assigns suffix letters; otherwise the single citation gets the
standard (suffix-free) form and no year entry.  `group_citations[0]` on an
empty group would panic (`none`); groups are nonempty by construction. -/
def processGroup (maps : List (String × String) × List (String × String))
    (g : String × List MatchedCitation) :
    Option (List (String × String) × List (String × String)) :=
  if g.2.length > 1 then
    assignGroup 0 (stableSortBy entryKeyLe g.2) maps.1 maps.2
  else
    match g.2 with
    | [] => none
    | c :: _ => do
      let std ← create_standard_citation c.citation_raw c.entry
      some (mapInsert maps.1 c.citation_raw std, maps.2)

/-- Fold `processGroup` over all groups: the disambiguation mapping pass. -/
def buildMaps (maps : List (String × String) × List (String × String)) :
    List (String × List MatchedCitation) →
    Option (List (String × String) × List (String × String))
  | [] => some maps
  | g :: rest => do
    let maps1 ← processGroup maps g
    buildMaps maps1 rest

/-- `transformers::disambiguate_matched_citations`: group by author-year,
build the disambiguation maps, then rewrite every citation in input order.
The display form falls back to the raw citation and the year falls back to
the bare `extract_date` year when a map has no binding. -/
def disambiguate_matched_citations (citations : List MatchedCitation) :
    Option (List MatchedCitationDisambiguated) := do
  let groups ← buildGroups citations
  let maps ← buildMaps ([], []) groups
  citations.mapM (fun mc => do
    let disambiguated := (mapGet maps.1 mc.citation_raw).getD mc.citation_raw
    let year ←
      match mapGet maps.2 mc.citation_raw with
      | some y => some y
      | none => do
        let y ← extract_date mc.entry
        some (yearToString y)
    some { citation_raw := mc.citation_raw
           citation_author_date_disambiguated := disambiguated
           year_disambiguated := year
           entry := mc.entry })

/-! ### Specification-side view of the disambiguation engine

`expectedDisambiguated` computes, for one citation, the value that
`disambiguate_matched_citations` produces for it: its group is the set of
input citations sharing its author-year key, a group with more than one
citation is sorted by entry key and indexed to a suffix letter, and a
singleton group gets the standard suffix-free forms.  The characterization
theorem below proves `disambiguate_matched_citations` equal to mapping this
function, for inputs with pairwise distinct raw citation strings. -/

/-- All input citations in the same author-year group as `mc`. -/
def groupOf (citations : List MatchedCitation) (mc : MatchedCitation) :
    List MatchedCitation :=
  citations.filter (fun c => author_year_key c == author_year_key mc)

/-- Index of the first citation carrying the raw string `raw`. -/
def idxOfRaw (raw : String) : List MatchedCitation → Option Nat
  | [] => none
  | c :: rest =>
    if c.citation_raw == raw then some 0 else (idxOfRaw raw rest).map (fun n => n + 1)

/-- The position of `mc` (by raw citation string) in its sorted group. -/
def sortedGroupIndex (citations : List MatchedCitation) (mc : MatchedCitation) :
    Option Nat :=
  idxOfRaw mc.citation_raw (stableSortBy entryKeyLe (groupOf citations mc))

/-- The value `disambiguate_matched_citations` produces for `mc`. -/
def expectedDisambiguated (citations : List MatchedCitation) (mc : MatchedCitation) :
    Option MatchedCitationDisambiguated :=
  if (groupOf citations mc).length > 1 then do
    let i ← sortedGroupIndex citations mc
    let dis ← create_disambiguated_citation (suffixLetter i) mc.entry
    let dy ← create_disambiguated_year (suffixLetter i) mc.entry
    some ⟨mc.citation_raw, dis, dy, mc.entry⟩
  else do
    let std ← create_standard_citation mc.citation_raw mc.entry
    let y ← extract_date mc.entry
    some ⟨mc.citation_raw, std, yearToString y, mc.entry⟩

/-! ### Citation extractor (src/validators.rs, `extract_citations_from_markdown`)

The Rust scanner applies the fixed regex
`\((see\s)?(@[^(),\s]+(?:,[^)]*)?|[A-Z][^()]*?\d+(?:,[^)]*)?)\)`
to each line with `captures_iter` (leftmost-first matches, scanning
continuing after each match) and pushes the trimmed second capture group.
The embedding hand-compiles this one regex: each function below implements
one piece with the regex crate's leftmost-first preference order. -/

/-- The optional locator `(?:,[^)]*)?` followed by the required `\)` check:
returns the characters the group consumes and the rest of the input, which
is guaranteed to start with `)`.  Preference order: the group present (with
its greedy `[^)]*`) first, then absent; a leading `,` with no later `)`
fails both ways. -/
def tryTail : List Char → Option (List Char × List Char)
  | [] => none
  | c :: rest =>
    if c = ',' then
      let run := rest.takeWhile (fun x => x != ')')
      let after := rest.dropWhile (fun x => x != ')')
      if after.head? = some ')' then some (',' :: run, after) else none
    else if c = ')' then some ([], c :: rest)
    else none

/-- A character the author-year form's lazy `[^()]*?` may consume. -/
def starChar (c : Char) : Bool :=
  c != '(' && c != ')'

/-- `[^()]*?\d+(?:,[^)]*)?` before the `\)` check: the lazy star grows from
the left, and at each digit the greedy `\d+` plus `tryTail` is attempted
(shorter digit runs cannot succeed, as the character after them is a digit).
Returns the consumed characters and the rest, starting with `)`. -/
def starThenDigits : List Char → Option (List Char × List Char)
  | [] => none
  | c :: rest =>
    if c.isDigit then
      let run := (c :: rest).takeWhile Char.isDigit
      let after := (c :: rest).dropWhile Char.isDigit
      match tryTail after with
      | some (t, r) => some (run ++ t, r)
      | none =>
        if starChar c then (starThenDigits rest).map (fun p => (c :: p.1, p.2))
        else none
    else
      if starChar c then (starThenDigits rest).map (fun p => (c :: p.1, p.2))
      else none

/-- A character of the `@`-key run `[^(),\s]+`. -/
def keyChar (c : Char) : Bool :=
  c != '(' && c != ')' && c != ',' && !c.isWhitespace

/-- `@[^(),\s]+(?:,[^)]*)?` before the `\)` check. -/
def keyForm : List Char → Option (List Char × List Char)
  | [] => none
  | c :: rest =>
    if c = '@' then
      let run := rest.takeWhile keyChar
      if run.isEmpty then none
      else
        match tryTail (rest.dropWhile keyChar) with
        | some (t, r) => some ('@' :: (run ++ t), r)
        | none => none
    else none

/-- The capture group's alternation, `@`-key form preferred (the two sides
start with different characters, so the preference never decides). -/
def citBody (cs : List Char) : Option (List Char × List Char) :=
  match keyForm cs with
  | some r => some r
  | none =>
    match cs with
    | [] => none
    | c :: rest =>
      if 'A' ≤ c ∧ c ≤ 'Z' then
        (starThenDigits rest).map (fun p => (c :: p.1, p.2))
      else none

/-- The optional greedy `(see\s)?` after the opening parenthesis: when the
input starts with `s`, `e`, `e` and a whitespace character, the body is
first tried after them and, on failure, without consuming them. -/
def afterParen (cs : List Char) : Option (List Char × List Char) :=
  if cs.take 3 = ['s', 'e', 'e'] ∧ (((cs.drop 3).head?.map Char.isWhitespace).getD false)
  then
    match citBody (cs.drop 4) with
    | some r => some r
    | none => citBody cs
  else citBody cs

/-- One line's `captures_iter` loop: at each `(` attempt a match; on success
push the trimmed capture and continue after the closing parenthesis,
otherwise continue with the next character.  `fuel` only bounds the
recursion: the initial call passes the line length, which suffices because
every step consumes at least one character (a successful match consumes the
parentheses and a nonempty body). -/
def scanLineAux : Nat → List Char → List String
  | 0, _ => []
  | _ + 1, [] => []
  | fuel + 1, c :: rest =>
    if c = '(' then
      match afterParen rest with
      | some (grp, _ :: after) => String.mk (trimChars grp) :: scanLineAux fuel after
      | some (_, []) => []
      | none => scanLineAux fuel rest
    else scanLineAux fuel rest

/-- Scan one line for citation markers. -/
def scanLine (cs : List Char) : List String :=
  scanLineAux cs.length cs

/-- Split at every newline character (the pieces of `str::split('\n')`). -/
def splitNl : List Char → List (List Char)
  | [] => [[]]
  | c :: rest =>
    if c = '\n' then [] :: splitNl rest
    else
      match splitNl rest with
      | [] => [[c]]
      | l :: ls => (c :: l) :: ls

/-- Drop one trailing carriage return (Rust `str::lines` handles `\r\n`). -/
def stripCr (l : List Char) : List Char :=
  if l.getLast? = some '\r' then l.dropLast else l

/-- Rust `str::lines`: split at `\n`, drop a final empty piece, and strip a
trailing `\r` from each line. -/
def rustLines (cs : List Char) : List (List Char) :=
  let pieces := splitNl cs
  let pieces := if pieces.getLast? = some [] then pieces.dropLast else pieces
  pieces.map stripCr

/-- `validators::extract_citations_from_markdown`: scan every line in
order, returning the trimmed capture groups line by line, left to right. -/
def extract_citations_from_markdown (markdown : String) : List String :=
  ((rustLines markdown.data).map scanLine).flatten

/-- `validators::create_citations_set`: reduce each citation to the text
before its first comma and de-duplicate, keeping first-occurrence order. -/
def create_citations_set (citations : List String) : List String :=
  citations.foldl
    (fun citations_set citation =>
      let prepared := String.mk (takeBeforeComma citation.data)
      if citations_set.contains prepared then citations_set
      else citations_set ++ [prepared]) []

/-- Split at whitespace runs, dropping empty pieces
(Rust `str::split_whitespace`).  Fuel-driven; the initial call passes the
length, which suffices since every step consumes at least one character. -/
def splitWsAux : Nat → List Char → List (List Char)
  | 0, _ => []
  | _ + 1, [] => []
  | fuel + 1, c :: rest =>
    if c.isWhitespace then splitWsAux fuel rest
    else
      (c :: rest.takeWhile (fun x => !x.isWhitespace)) ::
        splitWsAux fuel (rest.dropWhile (fun x => !x.isWhitespace))

/-- Rust `str::split_whitespace`. -/
def splitWs (cs : List Char) : List (List Char) :=
  splitWsAux cs.length cs

/-- Rust `str::parse::<u32>()`: digits with an optional leading `+`, value
below `2^32`. -/
def parseU32 (w : List Char) : Option Nat :=
  let digits := match w with | '+' :: rest => rest | _ => w
  if digits ≠ [] ∧ digits.all Char.isDigit then
    let v := digits.foldl (fun acc c => acc * 10 + (c.toNat - 48)) 0
    if v < 4294967296 then some v else none
  else none

/-- `validators::verify_citations_format`: every citation not in `@`-key
form must contain, before any comma, a whitespace-delimited token parsing as
an integer in `[1000, 9999]`; otherwise the malformed-citation error. -/
def verify_citations_format : List String → Except String Unit
  | [] => .ok ()
  | citation :: rest =>
    if startsWithAt citation then verify_citations_format rest
    else
      let first_part := trimChars (takeBeforeComma citation.data)
      let has_year := (splitWs first_part).any (fun w =>
        match parseU32 w with
        | some num => decide (1000 ≤ num ∧ num ≤ 9999)
        | none => false)
      if has_year then verify_citations_format rest
      else .error ("Citation is malformed or is missing year: (" ++ citation ++ ")")

/-- `validators::check_parentheses_balance`: left-to-right balance scan; a
prefix with more `)` than `(` fails immediately, and the final balance must
be zero.  (The Rust counter is an `i32`; overflow is out of reach for any
realistic document and is not modelled.) -/
def checkParenAux : Int → List Char → Bool
  | balance, [] => balance == 0
  | balance, c :: rest =>
    let b2 := if c = '(' then balance + 1 else if c = ')' then balance - 1 else balance
    if b2 < 0 then false else checkParenAux b2 rest

/-- `validators::check_parentheses_balance`. -/
def check_parentheses_balance (markdown : String) : Bool :=
  checkParenAux 0 markdown.data

/-- `validators::MetadataUnverified`: the front matter as deserialized
(`indexTitle` may be absent). -/
structure MetadataUnverified where
  title : String
  index_title : Option String
  description : String
  is_article : Bool
  authors : Option String
  editors : Option String
  contributors : Option String
deriving DecidableEq, Repr

/-- `validators::Metadata`: the verified front matter. -/
structure Metadata where
  title : String
  index_title : String
  description : String
  is_article : Bool
  authors : Option String
  editors : Option String
  contributors : Option String
deriving DecidableEq, Repr

/-- The result of a successful `read_mdx_file` for one path: metadata, the
markdown body after the closing `---`, and the full file content.  File
reading itself is environment interaction and is modelled by handing
`verify_mdx_files` the already-read documents in path order. -/
structure MdxDoc where
  path : String
  metadata : MetadataUnverified
  markdown_content : String
  full_file_content : String
deriving DecidableEq, Repr

/-- `validators::ArticleFileData`. -/
structure ArticleFileData where
  path : String
  metadata : Metadata
  markdown_content : String
  entries_disambiguated : List MatchedCitationDisambiguated
  full_file_content : String
deriving DecidableEq, Repr

/-- The ways `verify_mdx_files` aborts: a returned `Err` (unbalanced
parentheses, missing `indexTitle`), a `process::exit(1)` (citation format
or matching failure), or a panic (an `unwrap` on absent author/date data
inside matching or disambiguation). -/
inductive VerifyError where
  | unbalanced (path : String)
  | formatExit (msg : String) (path : String)
  | matchPanic
  | matchExit (unmatched : List String) (path : String)
  | disambiguatePanic
  | missingIndexTitle (path : String)
deriving DecidableEq, Repr

/-- The loop body of `validators::verify_mdx_files` over the already-read
documents: `acc` accumulates the verified articles, `count` the
`article_count` counter.  A document whose metadata has `is_article =
false` is `continue`d over before any parenthesis, citation or
bibliography work. -/
def verifyLoop (all_entries : List Entry) :
    List MdxDoc → List ArticleFileData → Nat →
    Except VerifyError (List ArticleFileData × Nat)
  | [], acc, count => .ok (acc, count)
  | doc :: rest, acc, count =>
    if !doc.metadata.is_article then verifyLoop all_entries rest acc count
    else if !check_parentheses_balance doc.markdown_content then
      .error (.unbalanced doc.path)
    else
      let citations := extract_citations_from_markdown doc.markdown_content
      match verify_citations_format citations with
      | .error e => .error (.formatExit e doc.path)
      | .ok _ =>
        match match_citations_to_bibliography (create_citations_set citations)
            all_entries with
        | .panicked => .error .matchPanic
        | .unmatched u => .error (.matchExit u doc.path)
        | .ok matched =>
          match disambiguate_matched_citations matched with
          | none => .error .disambiguatePanic
          | some disambiguated =>
            match doc.metadata.index_title with
            | none => .error (.missingIndexTitle doc.path)
            | some ititle =>
              verifyLoop all_entries rest
                (acc ++ [{ path := doc.path
                           metadata := { title := doc.metadata.title
                                         index_title := ititle
                                         description := doc.metadata.description
                                         is_article := doc.metadata.is_article
                                         authors := doc.metadata.authors
                                         editors := doc.metadata.editors
                                         contributors := doc.metadata.contributors }
                           markdown_content := doc.markdown_content
                           entries_disambiguated := disambiguated
                           full_file_content := doc.full_file_content }])
                (count + 1)

/-- `validators::verify_mdx_files` on the already-read documents: the
verified articles, the `article_count`, and the files-verified total the
success message prints (`mdx_paths.len()`). -/
def verify_mdx_files (mdx_docs : List MdxDoc) (all_entries : List Entry) :
    Except VerifyError (List ArticleFileData × Nat × Nat) :=
  (verifyLoop all_entries mdx_docs [] 0).map (fun r => (r.1, r.2, mdx_docs.length))

/-! ### Bibliography rendering (src/transformers.rs, src/inserters.rs) -/

/-- ASCII lowercasing of one character (the inputs prepyrus handles are
ASCII, where this matches Rust `str::to_lowercase`). -/
def asciiLower (c : Char) : Char :=
  if 'A' ≤ c ∧ c ≤ 'Z' then Char.ofNat (c.toNat + 32) else c

/-- Rust `str::to_lowercase` on ASCII input. -/
def lowercaseString (s : String) : String :=
  String.mk (s.data.map asciiLower)

/-- The sort key of `transformers::sort_entries`: the lowercased surname of
the first author, empty when authors are absent. -/
def sortKey (mc : MatchedCitationDisambiguated) : String :=
  match (mc.entry.author.getD []).head? with
  | some p => lowercaseString p.name
  | none => ""

/-- `transformers::sort_entries`: stable sort by lowercased first-author
surname. -/
def sort_entries (entries : List MatchedCitationDisambiguated) :
    List MatchedCitationDisambiguated :=
  stableSortBy (fun a b => stringLe (sortKey a) (sortKey b)) entries

/-- The `i > 0`-element rendering loop of
`transformers::generate_contributors` for more than one contributor. -/
def renderContribList : List Person → String
  | [] => ""
  | [p] => "and " ++ p.given_name ++ " " ++ p.name ++ ". "
  | p :: rest => p.given_name ++ " " ++ p.name ++ ", " ++ renderContribList rest

/-- `transformers::generate_contributors`. -/
def generate_contributors (contributors : List Person)
    (contributor_description : String) : String :=
  match contributors with
  | [] => ""
  | [c] => contributor_description ++ " by " ++ c.given_name ++ " " ++ c.name ++ ". "
  | a :: b :: rest =>
    contributor_description ++ " by " ++ renderContribList (a :: b :: rest)

/-- Rust `str::trim_end`. -/
def trimEndString (s : String) : String :=
  String.mk ((s.data.reverse.dropWhile Char.isWhitespace).reverse)

/-- `transformers::transform_book_entry`; `none` models the panics of the
`unwrap()`s on absent author, title, publisher or address data. -/
def transform_book_entry (mc : MatchedCitationDisambiguated) : Option String := do
  let authors ← mc.entry.author
  let authorsStr ← format_authors authors
  let titleChunks ← mc.entry.title
  let publisherData ← mc.entry.publisher
  let addressChunks ← mc.entry.address
  let title := extract_spanned_chunk titleChunks
  let publisher := extract_publisher publisherData
  let address := extract_spanned_chunk addressChunks
  let translators_mdx := generate_contributors (mc.entry.translator.getD []) "Translated"
  let doi := mc.entry.doi.getD ""
  some (trimEndString (authorsStr ++ (mc.year_disambiguated ++ ". ") ++
    ("_" ++ title ++ "_. ") ++ translators_mdx ++
    (address ++ ": " ++ publisher ++ ". ") ++
    (if doi.isEmpty then "" else " https://doi.org/" ++ doi ++ ".")))

/-- `transformers::transform_article_entry`. -/
def transform_article_entry (mc : MatchedCitationDisambiguated) : Option String := do
  let authors ← mc.entry.author
  let authorsStr ← format_authors authors
  let titleChunks ← mc.entry.title
  let journalChunks ← mc.entry.journal
  let volumeData ← mc.entry.volume
  let numberChunks ← mc.entry.number
  let pagesData ← mc.entry.pages
  let title := extract_spanned_chunk titleChunks
  let journal := extract_spanned_chunk journalChunks
  let volume := extract_volume volumeData
  let number := extract_spanned_chunk numberChunks
  let pages := extract_pages pagesData
  let translators_mdx := generate_contributors (mc.entry.translator.getD []) "Translated"
  let doi := mc.entry.doi.getD ""
  some (trimEndString (authorsStr ++ (mc.year_disambiguated ++ ". ") ++
    ("\"" ++ title ++ "\". ") ++
    ("_" ++ journal ++ "_ " ++ yearToString volume ++ " (" ++ number ++ "): " ++
      pages ++ ". ") ++ translators_mdx ++
    (if doi.isEmpty then "" else " https://doi.org/" ++ doi ++ ".")))

/-- The rendering loop of `transformers::entries_to_strings` over the
sorted entries: books and articles are rendered, other types only logged. -/
def entriesToStringsAux : List MatchedCitationDisambiguated → Option (List String)
  | [] => some []
  | mc :: rest =>
    match mc.entry.entry_type with
    | .book => do
      let s ← transform_book_entry mc
      let others ← entriesToStringsAux rest
      some (s :: others)
    | .article => do
      let s ← transform_article_entry mc
      let others ← entriesToStringsAux rest
      some (s :: others)
    | .other => entriesToStringsAux rest

/-- `transformers::entries_to_strings`. -/
def entries_to_strings (entries : List MatchedCitationDisambiguated) :
    Option (List String) :=
  entriesToStringsAux (sort_entries entries)

/-- Rust `str::replace("..", ".")`: non-overlapping matches replaced left to
right. -/
def collapse2 : List Char → List Char
  | [] => []
  | [c] => [c]
  | a :: b :: rest =>
    if a = '.' ∧ b = '.' then '.' :: collapse2 rest
    else a :: collapse2 (b :: rest)

/-- Rust `str::replace("...", ".")`. -/
def collapse3 : List Char → List Char
  | a :: b :: c :: rest =>
    if a = '.' ∧ b = '.' ∧ c = '.' then '.' :: collapse3 rest
    else a :: collapse3 (b :: c :: rest)
  | cs => cs

/-- Rust `str::replace("....", ".")`. -/
def collapse4 : List Char → List Char
  | a :: b :: c :: d :: rest =>
    if a = '.' ∧ b = '.' ∧ c = '.' ∧ d = '.' then '.' :: collapse4 rest
    else a :: collapse4 (b :: c :: d :: rest)
  | cs => cs

/-- No two adjacent periods (the claim's "no run of two or more
consecutive `.` characters"). -/
def noDD : List Char → Bool
  | a :: b :: rest => !(a == '.' && b == '.') && noDD (b :: rest)
  | _ => true

/-- No three adjacent periods. -/
def noDDD : List Char → Bool
  | a :: b :: c :: rest => !(a == '.' && b == '.' && c == '.') && noDDD (b :: c :: rest)
  | _ => true

/-- The bibliography block as assembled before the period post-processing:
header, one `- ` line per prepared entry, footer. -/
def rawBlock (prepared : List String) : String :=
  "\n## Bibliography\n\n<div className=\"text-sm\">\n" ++
    String.join (prepared.map (fun e => "- " ++ e ++ "\n")) ++ "</div>\n"

/-- `inserters::generate_mdx_bibliography`: empty input short-circuits to
the empty string; otherwise the assembled block runs through the three
`replace` passes in source order. -/
def generate_mdx_bibliography (entries : List MatchedCitationDisambiguated) :
    Option String :=
  if entries.isEmpty then some "" else do
    let prepared ← entries_to_strings entries
    some (String.mk (collapse4 (collapse3 (collapse2 (rawBlock prepared).data))))

/-! ### Index generation (src/inserters.rs) -/

/-- `inserters::ArticleIndexData`. -/
structure ArticleIndexData where
  path : String
  index_title : String
deriving DecidableEq, Repr

/-- `inserters::get_index_data`. -/
def get_index_data (article : ArticleFileData) : ArticleIndexData :=
  { path := article.path, index_title := article.metadata.index_title }

/-- ASCII uppercasing of one character (`char::to_ascii_uppercase`). -/
def toAsciiUpper (c : Char) : Char :=
  if 'a' ≤ c ∧ c ≤ 'z' then Char.ofNat (c.toNat - 32) else c

/-- ASCII lowercasing of one character (`char::to_ascii_lowercase`). -/
def toAsciiLower (c : Char) : Char :=
  if 'A' ≤ c ∧ c ≤ 'Z' then Char.ofNat (c.toNat + 32) else c

/-- Rust `str::replace(".mdx", "")`: every (non-overlapping, left-to-right)
occurrence of `.mdx` is removed, not only a trailing extension.  Fuel-driven
with the length as initial fuel; every step consumes at least one
character. -/
def removeMdxAux : Nat → List Char → List Char
  | 0, _ => []
  | _ + 1, [] => []
  | fuel + 1, c :: rest =>
    if c = '.' ∧ rest.take 3 = ['m', 'd', 'x'] then removeMdxAux fuel (rest.drop 3)
    else c :: removeMdxAux fuel rest

/-- Rust `str::replace(".mdx", "")`. -/
def removeMdx (cs : List Char) : List Char :=
  removeMdxAux cs.length cs

/-- Rust `str::starts_with`. -/
def startsWith (p cs : List Char) : Bool :=
  decide (cs.take p.length = p)

/-- `inserters::generate_index_entry`: the link is the path with every
`.mdx` removed, then — when it starts with the configured `from` prefix —
`replacen(from, to, 1)` swaps that prefix (the first occurrence is the
prefix itself); the display text is the index title, untouched. -/
def generate_index_entry (index_data : ArticleIndexData)
    (rewriteOpt : Option (String × String)) : String :=
  let link := String.mk (removeMdx index_data.path.data)
  let link := match rewriteOpt with
    | some (f, t) =>
      if startsWith f.data link.data
      then String.mk (t.data ++ link.data.drop f.data.length)
      else link
    | none => link
  "\n[" ++ index_data.index_title ++ "](" ++ link ++ ")\n"

/-- `itertools::sorted_by` the lowercased index title (stable). -/
def sortIndexData (all_articles : List ArticleFileData) : List ArticleIndexData :=
  stableSortBy
    (fun a b => stringLe (lowercaseString a.index_title) (lowercaseString b.index_title))
    (all_articles.map get_index_data)

/-- Ascending duplicate-free insertion: `BTreeSet<char>::insert`. -/
def insertSorted (c : Char) : List Char → List Char
  | [] => [c]
  | x :: rest =>
    if c < x then c :: x :: rest
    else if c = x then x :: rest
    else x :: insertSorted c rest

/-- The section loop of `inserters::generate_index_to_file`: walking the
sorted index data, a `\n## {Letter}\n` heading is pushed whenever the
uppercased first character of the title differs from `current`, and the
letter goes into the jump-link set; every element then pushes its index
entry. -/
def indexLoop (rewriteOpt : Option (String × String)) :
    List ArticleIndexData → Option Char → List Char → String × List Char
  | [], _, letters => ("", letters)
  | d :: rest, current, letters =>
    let first_letter := d.index_title.data.head?.map toAsciiUpper
    let step :=
      if first_letter ≠ current then
        match first_letter with
        | some letter =>
          ("\n## " ++ String.mk [letter] ++ "\n", some letter, insertSorted letter letters)
        | none => ("", current, letters)
      else ("", current, letters)
    let next := indexLoop rewriteOpt rest step.2.1 step.2.2
    (step.1 ++ generate_index_entry d rewriteOpt ++ next.1, next.2)

/-- `Vec::join` with a separator. -/
def joinSep (sep : String) : List String → String
  | [] => ""
  | [s] => s
  | s :: rest => s ++ sep ++ joinSep sep rest

/-- The payload `inserters::generate_index_to_file` appends to the index
file (writing itself is environment interaction): the intro line with the
article count and the jump links, then the sectioned entry list. -/
def generate_index_to_file_payload (all_articles : List ArticleFileData)
    (rewriteOpt : Option (String × String)) : String :=
  let sorted := sortIndexData all_articles
  let result := indexLoop rewriteOpt sorted none []
  let jump_links := joinSep " · "
    (result.2.map (fun l => "[" ++ String.mk [l] ++ "](#" ++ String.mk [toAsciiLower l] ++ ")"))
  let intro := "\n_This index contains **" ++ toString sorted.length ++
    " articles**, organized alphabetically by title. Use the links below to jump to a section:_\n\n" ++
    jump_links
  intro ++ "\n\n" ++ result.1

/-! ### Extractor lemmas -/

theorem takeWhile_all_append {α : Type} {p : α → Bool} :
    ∀ {l : List α} (r : List α), (∀ c ∈ l, p c = true) →
      (l ++ r).takeWhile p = l ++ r.takeWhile p
  | [], r, _ => rfl
  | c :: l, r, h => by
    have hc : p c = true := h c (List.mem_cons_self c l)
    simp only [List.cons_append, List.takeWhile_cons, hc, if_true]
    rw [takeWhile_all_append r (fun x hx => h x (List.mem_cons.mpr (Or.inr hx)))]

theorem dropWhile_all_append {α : Type} {p : α → Bool} :
    ∀ {l : List α} (r : List α), (∀ c ∈ l, p c = true) →
      (l ++ r).dropWhile p = r.dropWhile p
  | [], r, _ => rfl
  | c :: l, r, h => by
    have hc : p c = true := h c (List.mem_cons_self c l)
    simp only [List.cons_append, List.dropWhile_cons, hc, if_true]
    exact dropWhile_all_append r (fun x hx => h x (List.mem_cons.mpr (Or.inr hx)))

theorem dropWhile_stop {α : Type} {p : α → Bool} :
    ∀ (l : List α) (x : α) (r : List α), p x = false →
      (l ++ x :: r).dropWhile p = l.dropWhile p ++ x :: r
  | [], x, r, hx => by simp [List.dropWhile_cons, hx]
  | c :: l, x, r, hx => by
    by_cases hc : p c = true
    · simp only [List.cons_append, List.dropWhile_cons, hc, if_true]
      exact dropWhile_stop l x r hx
    · have hc2 : p c = false := by simpa using hc
      simp [List.dropWhile_cons, hc2]

theorem tryTail_comma (loc post : List Char) (h : ∀ c ∈ loc, c ≠ ')') :
    tryTail (',' :: (loc ++ ')' :: post)) = some (',' :: loc, ')' :: post) := by
  have hall : ∀ c ∈ loc, (c != ')') = true := by
    intro c hc
    simpa using h c hc
  show (let run := (loc ++ ')' :: post).takeWhile (fun x => x != ')')
        let after := (loc ++ ')' :: post).dropWhile (fun x => x != ')')
        if after.head? = some ')' then some (',' :: run, after) else none) =
      some (',' :: loc, ')' :: post)
  rw [show (loc ++ ')' :: post).takeWhile (fun x => x != ')') = loc by
      rw [takeWhile_all_append (')' :: post) hall]
      simp [List.takeWhile_cons],
    show (loc ++ ')' :: post).dropWhile (fun x => x != ')') = ')' :: post by
      rw [dropWhile_all_append (')' :: post) hall]
      simp [List.dropWhile_cons]]
  simp

theorem starThenDigits_spec :
    ∀ (s : List Char) (y tail t r : List Char),
      (∀ c ∈ s, c.isDigit = false ∧ starChar c = true) →
      y ≠ [] → (∀ c ∈ y, c.isDigit = true) →
      (∃ h0 tr, tail = h0 :: tr ∧ h0.isDigit = false) →
      tryTail tail = some (t, r) →
      starThenDigits (s ++ y ++ tail) = some (s ++ (y ++ t), r)
  | [], y, tail, t, r, _, hy, hyd, htail, htt => by
    cases y with
    | nil => exact absurd rfl hy
    | cons d y2 =>
      have hd : d.isDigit = true := hyd d (List.mem_cons_self d y2)
      obtain ⟨h0, tr, htl, hh0⟩ := htail
      have hyall : ∀ c ∈ (d :: y2 : List Char), c.isDigit = true := hyd
      have htake : ((d :: y2) ++ tail).takeWhile Char.isDigit = d :: y2 := by
        rw [takeWhile_all_append tail hyall, htl]
        simp [List.takeWhile_cons, hh0]
      have hdrop : ((d :: y2) ++ tail).dropWhile Char.isDigit = tail := by
        rw [dropWhile_all_append tail hyall, htl]
        simp [List.dropWhile_cons, hh0]
      have htake2 : List.takeWhile Char.isDigit (d :: (y2 ++ tail)) = d :: y2 := by
        rw [← List.cons_append]
        exact htake
      have hdrop2 : List.dropWhile Char.isDigit (d :: (y2 ++ tail)) = tail := by
        rw [← List.cons_append]
        exact hdrop
      show starThenDigits ([] ++ (d :: y2) ++ tail) = some ([] ++ ((d :: y2) ++ t), r)
      rw [List.nil_append, List.nil_append, List.cons_append]
      unfold starThenDigits
      simp only [List.append_eq, htake2, hdrop2, hd, if_true, htt]
  | c :: s2, y, tail, t, r, hs, hy, hyd, htail, htt => by
    have hc := hs c (List.mem_cons_self c s2)
    have hrec := starThenDigits_spec s2 y tail t r
      (fun x hx => hs x (List.mem_cons.mpr (Or.inr hx))) hy hyd htail htt
    show starThenDigits ((c :: s2) ++ y ++ tail) = some ((c :: s2) ++ (y ++ t), r)
    rw [List.cons_append, List.cons_append]
    unfold starThenDigits
    simp only [List.append_eq, hc.1, Bool.false_eq_true, if_false, hc.2, if_true,
      hrec]
    rfl

theorem keyForm_not_at {u : Char} (hu : u ≠ '@') (rest : List Char) :
    keyForm (u :: rest) = none := by
  simp [keyForm, hu]

theorem citBody_author (u : Char) (srest y opt post : List Char)
    (hu1 : 'A' ≤ u) (hu2 : u ≤ 'Z')
    (hsur : ∀ c ∈ u :: srest, c.isDigit = false ∧ c ≠ '(' ∧ c ≠ ')')
    (hy : y ≠ []) (hyd : ∀ c ∈ y, c.isDigit = true)
    (hopt : opt = [] ∨ ∃ loc, opt = ',' :: loc ∧ ∀ c ∈ loc, c ≠ ')') :
    citBody ((u :: srest) ++ (' ' :: (y ++ opt)) ++ ')' :: post) =
      some ((u :: srest) ++ (' ' :: (y ++ opt)), ')' :: post) := by
  have hu : u ≠ '@' := by
    intro hcon
    rw [hcon] at hu1
    exact absurd hu1 (by decide)
  have hstar : ∀ c ∈ srest ++ [' '], c.isDigit = false ∧ starChar c = true := by
    intro c hc
    rcases List.mem_append.mp hc with hc1 | hc2
    · obtain ⟨h1, h2, h3⟩ := hsur c (List.mem_cons.mpr (Or.inr hc1))
      exact ⟨h1, by simp [starChar, h2, h3]⟩
    · have hce : c = ' ' := by simpa using hc2
      subst hce
      exact ⟨by decide, by decide⟩
  have htt : tryTail (opt ++ ')' :: post) = some (opt, ')' :: post) := by
    rcases hopt with h | ⟨loc, hloc, hlocp⟩
    · subst h; rfl
    · subst hloc
      rw [List.cons_append]
      exact tryTail_comma loc post hlocp
  have htail : ∃ h0 tr, opt ++ ')' :: post = h0 :: tr ∧ h0.isDigit = false := by
    rcases hopt with h | ⟨loc, hloc, _⟩
    · exact ⟨')', post, by simp [h], by decide⟩
    · exact ⟨',', loc ++ ')' :: post, by simp [hloc], by decide⟩
  have hsd := starThenDigits_spec (srest ++ [' ']) y (opt ++ ')' :: post) opt (')' :: post)
    hstar hy hyd htail htt
  have harr : srest ++ (' ' :: (y ++ opt)) ++ ')' :: post =
      (srest ++ [' ']) ++ y ++ (opt ++ ')' :: post) := by
    simp [List.append_assoc]
  have hkf : keyForm ((u :: srest) ++ (' ' :: (y ++ opt)) ++ ')' :: post) = none := by
    rw [List.cons_append]
    exact keyForm_not_at hu _
  unfold citBody
  rw [hkf]
  show (match (u :: srest) ++ (' ' :: (y ++ opt)) ++ ')' :: post with
    | [] => none
    | c :: rest =>
      if 'A' ≤ c ∧ c ≤ 'Z' then
        (starThenDigits rest).map (fun p => (c :: p.1, p.2))
      else none) = some ((u :: srest) ++ (' ' :: (y ++ opt)), ')' :: post)
  rw [List.cons_append]
  show (if 'A' ≤ u ∧ u ≤ 'Z' then
      (starThenDigits (srest ++ (' ' :: (y ++ opt)) ++ ')' :: post)).map
        (fun p => (u :: p.1, p.2))
    else none) = some ((u :: srest) ++ (' ' :: (y ++ opt)), ')' :: post)
  rw [if_pos ⟨hu1, hu2⟩, harr, hsd]
  simp [List.append_assoc]

theorem afterParen_no_see {u : Char} (hu : u ≠ 's') (rest : List Char) :
    afterParen (u :: rest) = citBody (u :: rest) := by
  unfold afterParen
  rw [if_neg]
  rintro ⟨h1, -⟩
  simp only [List.take_succ_cons] at h1
  exact hu (List.cons.inj h1).1

theorem afterParen_see (ws : Char) (rest g r : List Char)
    (hws : ws.isWhitespace = true) (hcb : citBody rest = some (g, r)) :
    afterParen ('s' :: 'e' :: 'e' :: ws :: rest) = some (g, r) := by
  unfold afterParen
  rw [if_pos]
  · show (match citBody (('s' :: 'e' :: 'e' :: ws :: rest).drop 4) with
      | some p => some p
      | none => citBody ('s' :: 'e' :: 'e' :: ws :: rest)) = some (g, r)
    have hdrop : ('s' :: 'e' :: 'e' :: ws :: rest).drop 4 = rest := rfl
    rw [hdrop, hcb]
  · exact ⟨rfl, by simp [hws]⟩

theorem tryTail_append :
    ∀ {cs t r : List Char}, tryTail cs = some (t, r) → t ++ r = cs
  | [], t, r, h => by simp [tryTail] at h
  | c :: rest, t, r, h => by
    simp only [tryTail] at h
    split at h
    next hc =>
      split at h
      next hh =>
        obtain ⟨h1, h2⟩ := Prod.mk.injEq _ _ _ _ ▸ Option.some.inj h
        rw [← h1, ← h2, hc]
        simp [List.takeWhile_append_dropWhile]
      next hh => exact absurd h (by simp)
    next hc =>
      split at h
      next hc2 =>
        obtain ⟨h1, h2⟩ := Prod.mk.injEq _ _ _ _ ▸ Option.some.inj h
        rw [← h1, ← h2, hc2]
        simp
      next hc2 => exact absurd h (by simp)

theorem starThenDigits_append :
    ∀ {cs p1 p2 : List Char}, starThenDigits cs = some (p1, p2) →
      p1 ++ p2 = cs ∧ p1 ≠ []
  | [], p1, p2, h => by simp [starThenDigits] at h
  | c :: rest, p1, p2, h => by
    simp only [starThenDigits] at h
    split at h
    next hd =>
      split at h
      next t r htt =>
        obtain ⟨h1, h2⟩ := Prod.mk.injEq _ _ _ _ ▸ Option.some.inj h
        have happ := tryTail_append htt
        constructor
        · rw [← h1, ← h2, List.append_assoc, happ]
          simp [List.takeWhile_append_dropWhile]
        · rw [← h1]
          have hcons : (c :: rest).takeWhile Char.isDigit = c :: rest.takeWhile Char.isDigit := by
            simp [List.takeWhile_cons, hd]
          rw [hcons]
          simp
      next htt =>
        split at h
        next hsc =>
          cases hrec : starThenDigits rest with
          | none => rw [hrec] at h; simp at h
          | some q =>
            rw [hrec] at h
            obtain ⟨happ, hne⟩ := starThenDigits_append hrec
            simp only [Option.map_some'] at h
            obtain ⟨h1, h2⟩ := Prod.mk.injEq _ _ _ _ ▸ Option.some.inj h
            rw [← h1, ← h2]
            exact ⟨by rw [List.cons_append, happ], by simp⟩
        next hsc => exact absurd h (by simp)
    next hd =>
      split at h
      next hsc =>
        cases hrec : starThenDigits rest with
        | none => rw [hrec] at h; simp at h
        | some q =>
          rw [hrec] at h
          obtain ⟨happ, hne⟩ := starThenDigits_append hrec
          simp only [Option.map_some'] at h
          obtain ⟨h1, h2⟩ := Prod.mk.injEq _ _ _ _ ▸ Option.some.inj h
          rw [← h1, ← h2]
          exact ⟨by rw [List.cons_append, happ], by simp⟩
      next hsc => exact absurd h (by simp)

theorem keyForm_append :
    ∀ {cs p1 p2 : List Char}, keyForm cs = some (p1, p2) → p1 ++ p2 = cs ∧ p1 ≠ []
  | [], p1, p2, h => by simp [keyForm] at h
  | c :: rest, p1, p2, h => by
    simp only [keyForm] at h
    split at h
    next hc =>
      split at h
      next hrun => exact absurd h (by simp)
      next hrun =>
        split at h
        next t r htt =>
          obtain ⟨h1, h2⟩ := Prod.mk.injEq _ _ _ _ ▸ Option.some.inj h
          have happ := tryTail_append htt
          constructor
          · rw [← h1, ← h2, hc]
            simp only [List.cons_append, List.append_assoc, happ]
            simp [List.takeWhile_append_dropWhile]
          · rw [← h1]; simp
        next htt => exact absurd h (by simp)
    next hc => exact absurd h (by simp)

theorem citBody_append {cs p1 p2 : List Char} (h : citBody cs = some (p1, p2)) :
    p1 ++ p2 = cs ∧ p1 ≠ [] := by
  unfold citBody at h
  split at h
  next p hkf => exact keyForm_append (hkf.trans h)
  next hkf =>
    split at h
    · simp at h
    next c rest =>
      split at h
      next hc =>
        cases hst : starThenDigits rest with
        | none => rw [hst] at h; simp at h
        | some q =>
          rw [hst] at h
          obtain ⟨happ, hne⟩ := starThenDigits_append hst
          simp only [Option.map_some'] at h
          obtain ⟨h1, h2⟩ := Prod.mk.injEq _ _ _ _ ▸ Option.some.inj h
          rw [← h1, ← h2]
          exact ⟨by rw [List.cons_append, happ], by simp⟩
      next hc => simp at h

theorem afterParen_len {cs g r : List Char} (h : afterParen cs = some (g, r)) :
    g.length + r.length ≤ cs.length ∧ g ≠ [] := by
  unfold afterParen at h
  split at h
  · split at h
    next p hcb =>
      obtain ⟨happ, hne⟩ := citBody_append (hcb.trans h)
      have hlen : g.length + r.length = (cs.drop 4).length := by
        rw [← happ]; simp
      have hd := List.length_drop 4 cs
      exact ⟨by omega, hne⟩
    next hcb =>
      obtain ⟨happ, hne⟩ := citBody_append h
      refine ⟨?_, hne⟩
      rw [← happ]
      simp
  · obtain ⟨happ, hne⟩ := citBody_append h
    refine ⟨?_, hne⟩
    rw [← happ]
    simp

theorem scanLineAux_fuel :
    ∀ (f1 f2 : Nat) (cs : List Char), cs.length ≤ f1 → cs.length ≤ f2 →
      scanLineAux f1 cs = scanLineAux f2 cs
  | 0, f2, cs, h1, _ => by
    have hcs : cs = [] := List.eq_nil_of_length_eq_zero (Nat.le_zero.mp h1)
    subst hcs
    cases f2 <;> rfl
  | _ + 1, f2, [], _, _ => by cases f2 <;> rfl
  | f1 + 1, f2, c :: rest, h1, h2 => by
    cases f2 with
    | zero => simp at h2
    | succ f2 =>
      simp only [List.length_cons, Nat.succ_le_succ_iff] at h1 h2
      show (if c = '(' then
          match afterParen rest with
          | some (grp, _ :: after) => String.mk (trimChars grp) :: scanLineAux f1 after
          | some (_, []) => []
          | none => scanLineAux f1 rest
        else scanLineAux f1 rest) =
        (if c = '(' then
          match afterParen rest with
          | some (grp, _ :: after) => String.mk (trimChars grp) :: scanLineAux f2 after
          | some (_, []) => []
          | none => scanLineAux f2 rest
        else scanLineAux f2 rest)
      by_cases hc : c = '('
      · rw [if_pos hc, if_pos hc]
        cases hap : afterParen rest with
        | none => exact scanLineAux_fuel f1 f2 rest h1 h2
        | some p =>
          obtain ⟨grp, rem⟩ := p
          cases rem with
          | nil => rfl
          | cons x after =>
            obtain ⟨hlen, hne⟩ := afterParen_len hap
            have hg : 1 ≤ grp.length := by
              cases grp with
              | nil => exact absurd rfl hne
              | cons _ _ => simp
            simp only [List.length_cons] at hlen
            show String.mk (trimChars grp) :: scanLineAux f1 after =
              String.mk (trimChars grp) :: scanLineAux f2 after
            rw [scanLineAux_fuel f1 f2 after (by omega) (by omega)]
      · rw [if_neg hc, if_neg hc]
        exact scanLineAux_fuel f1 f2 rest h1 h2

theorem scanLineAux_no_paren :
    ∀ (f : Nat) (cs : List Char), '(' ∉ cs → scanLineAux f cs = []
  | 0, _, _ => rfl
  | _ + 1, [], _ => rfl
  | f + 1, c :: rest, h => by
    have hc : c ≠ '(' := fun hcc => h (hcc ▸ List.mem_cons_self c rest)
    show (if c = '(' then
        match afterParen rest with
        | some (grp, _ :: after) => String.mk (trimChars grp) :: scanLineAux f after
        | some (_, []) => []
        | none => scanLineAux f rest
      else scanLineAux f rest) = []
    rw [if_neg hc]
    exact scanLineAux_no_paren f rest (fun hm => h (List.mem_cons_of_mem c hm))

theorem scanLineAux_skip :
    ∀ (f : Nat) (pre cs : List Char), '(' ∉ pre →
      scanLineAux (f + pre.length) (pre ++ cs) = scanLineAux f cs
  | _, [], _, _ => by simp
  | f, p :: pre, cs, h => by
    have hp : p ≠ '(' := fun hpc => h (hpc ▸ List.mem_cons_self p pre)
    have hmem : '(' ∉ pre := fun hm => h (List.mem_cons_of_mem p hm)
    show (if p = '(' then
        match afterParen (pre ++ cs) with
        | some (grp, _ :: after) =>
            String.mk (trimChars grp) :: scanLineAux (f + pre.length) after
        | some (_, []) => []
        | none => scanLineAux (f + pre.length) (pre ++ cs)
      else scanLineAux (f + pre.length) (pre ++ cs)) = scanLineAux f cs
    rw [if_neg hp]
    exact scanLineAux_skip f pre cs hmem

theorem scanLineAux_match (f : Nat) (body post grp : List Char)
    (hap : afterParen (body ++ ')' :: post) = some (grp, ')' :: post)) :
    scanLineAux (f + 1) ('(' :: (body ++ ')' :: post)) =
      String.mk (trimChars grp) :: scanLineAux f post := by
  show (if '(' = '(' then
      match afterParen (body ++ ')' :: post) with
      | some (grp, _ :: after) => String.mk (trimChars grp) :: scanLineAux f after
      | some (_, []) => []
      | none => scanLineAux f (body ++ ')' :: post)
    else scanLineAux f (body ++ ')' :: post)) =
    String.mk (trimChars grp) :: scanLineAux f post
  rw [if_pos rfl, hap]

/-- A line holding exactly one citation marker: text without `(` on either
side, the marker's body between the parentheses. -/
theorem scanLine_single (pre inner post grp : List Char)
    (hpre : '(' ∉ pre) (hpost : '(' ∉ post)
    (hap : afterParen (inner ++ ')' :: post) = some (grp, ')' :: post)) :
    scanLine (pre ++ '(' :: (inner ++ ')' :: post)) = [String.mk (trimChars grp)] := by
  unfold scanLine
  have hlen : (pre ++ '(' :: (inner ++ ')' :: post)).length =
      ('(' :: (inner ++ ')' :: post)).length + pre.length := by
    simp [Nat.add_comm]
  rw [hlen, scanLineAux_skip _ pre _ hpre]
  show scanLineAux ((inner ++ ')' :: post).length + 1) ('(' :: (inner ++ ')' :: post)) = _
  rw [scanLineAux_match _ inner post grp hap,
    scanLineAux_no_paren _ post hpost]

theorem splitNl_no_nl : ∀ (cs : List Char), '\n' ∉ cs → splitNl cs = [cs]
  | [], _ => rfl
  | c :: rest, h => by
    have hc : c ≠ '\n' := fun hcc => h (hcc ▸ List.mem_cons_self c rest)
    have hrest := splitNl_no_nl rest (fun hm => h (List.mem_cons_of_mem c hm))
    show (if c = '\n' then [] :: splitNl rest else
      match splitNl rest with
      | [] => [[c]]
      | l :: ls => (c :: l) :: ls) = [c :: rest]
    rw [if_neg hc, hrest]

theorem splitNl_append : ∀ (l1 l2 : List Char), '\n' ∉ l1 →
    splitNl (l1 ++ '\n' :: l2) = l1 :: splitNl l2
  | [], l2, _ => by
    show (if '\n' = '\n' then [] :: splitNl l2 else
      match splitNl l2 with
      | [] => [['\n']]
      | l :: ls => ('\n' :: l) :: ls) = [] :: splitNl l2
    rw [if_pos rfl]
  | c :: l1, l2, h => by
    have hc : c ≠ '\n' := fun hcc => h (hcc ▸ List.mem_cons_self c l1)
    have hmem : '\n' ∉ l1 := fun hm => h (List.mem_cons_of_mem c hm)
    show (if c = '\n' then [] :: splitNl (l1 ++ '\n' :: l2) else
      match splitNl (l1 ++ '\n' :: l2) with
      | [] => [[c]]
      | l :: ls => (c :: l) :: ls) = (c :: l1) :: splitNl l2
    rw [if_neg hc, splitNl_append l1 l2 hmem]

theorem rustLines_single (cs : List Char) (hnl : '\n' ∉ cs) (hne : cs ≠ [])
    (hcr : cs.getLast? ≠ some '\r') : rustLines cs = [cs] := by
  simp only [rustLines, splitNl_no_nl cs hnl]
  rw [if_neg (by simpa using hne)]
  simp [stripCr, hcr]

theorem rustLines_two (l1 l2 : List Char) (h1 : '\n' ∉ l1) (h2 : '\n' ∉ l2)
    (hne2 : l2 ≠ []) (hcr1 : l1.getLast? ≠ some '\r')
    (hcr2 : l2.getLast? ≠ some '\r') :
    rustLines (l1 ++ '\n' :: l2) = [l1, l2] := by
  simp only [rustLines, splitNl_append l1 l2 h1, splitNl_no_nl l2 h2]
  rw [if_neg (by simpa using hne2)]
  simp [stripCr, hcr1, hcr2]

theorem dropWhile_head_false {α : Type} {p : α → Bool} :
    ∀ (l : List α), (l.head?.map p).getD false = false → l.dropWhile p = l
  | [], _ => rfl
  | c :: rest, h => by
    have hc : p c = false := by simpa using h
    simp [List.dropWhile_cons, hc]

theorem trimChars_eq_self (cs : List Char)
    (hh : (cs.head?.map Char.isWhitespace).getD false = false)
    (hl : (cs.getLast?.map Char.isWhitespace).getD false = false) :
    trimChars cs = cs := by
  unfold trimChars
  rw [dropWhile_head_false cs hh,
    dropWhile_head_false cs.reverse (by rw [List.head?_reverse]; exact hl),
    List.reverse_reverse]

theorem takeBeforeComma_no_comma (cs : List Char) (h : ',' ∉ cs) :
    takeBeforeComma cs = cs := by
  unfold takeBeforeComma
  have : cs ++ [] = cs := by simp
  rw [← this, takeWhile_all_append [] (by
    intro c hc
    simp only [decide_eq_true_eq]
    exact fun hcc => h (hcc ▸ hc))]
  simp

theorem takeBeforeComma_comma (A B : List Char) (h : ',' ∉ A) :
    takeBeforeComma (A ++ ',' :: B) = A := by
  unfold takeBeforeComma
  rw [takeWhile_all_append (',' :: B) (by
    intro c hc
    simp only [decide_eq_true_eq]
    exact fun hcc => h (hcc ▸ hc))]
  simp [List.takeWhile_cons]

theorem upper_not_ws (u : Char) (h : 'A' ≤ u) (h2 : u ≤ 'Z') :
    u.isWhitespace = false := by
  have h1 : u ≠ ' ' := fun he => by subst he; exact absurd h (by decide)
  have ht : u ≠ '\t' := fun he => by subst he; exact absurd h (by decide)
  have hr : u ≠ '\r' := fun he => by subst he; exact absurd h (by decide)
  have hn : u ≠ '\n' := fun he => by subst he; exact absurd h (by decide)
  simp [Char.isWhitespace, h1, ht, hr, hn]

theorem digit_not_ws (c : Char) (h : c.isDigit = true) : c.isWhitespace = false := by
  have hb : ('0' ≤ c && c ≤ '9') = true := h
  simp only [Bool.and_eq_true, decide_eq_true_eq] at hb
  have h1 : c ≠ ' ' := fun he => by subst he; exact absurd hb.1 (by decide)
  have ht : c ≠ '\t' := fun he => by subst he; exact absurd hb.1 (by decide)
  have hr : c ≠ '\r' := fun he => by subst he; exact absurd hb.1 (by decide)
  have hn : c ≠ '\n' := fun he => by subst he; exact absurd hb.1 (by decide)
  simp [Char.isWhitespace, h1, ht, hr, hn]

theorem digit_ne_nl (c : Char) (h : c.isDigit = true) : c ≠ '\n' := by
  intro he
  subst he
  exact absurd h (by decide)

/-- One line holding one author-year marker, optionally with a leading
`see` and whitespace inside the parentheses: its scan yields exactly the
trimmed capture group, which keeps any locator and drops the `see`. -/
theorem scanLine_marker (pre post : List Char) (see : Bool) (ws u : Char)
    (srest y opt : List Char)
    (hpre : '(' ∉ pre) (hpost : '(' ∉ post)
    (hu1 : 'A' ≤ u) (hu2 : u ≤ 'Z')
    (hsur : ∀ c ∈ u :: srest, c.isDigit = false ∧ c ≠ '(' ∧ c ≠ ')')
    (hy : y ≠ []) (hyd : ∀ c ∈ y, c.isDigit = true)
    (hopt : opt = [] ∨ ∃ loc, opt = ',' :: loc ∧ ∀ c ∈ loc, c ≠ ')')
    (hws : ws.isWhitespace = true) :
    scanLine (pre ++ '(' ::
        ((if see then 's' :: 'e' :: 'e' :: ws :: ((u :: srest) ++ ' ' :: (y ++ opt))
          else (u :: srest) ++ ' ' :: (y ++ opt)) ++ ')' :: post)) =
      [String.mk (trimChars ((u :: srest) ++ ' ' :: (y ++ opt)))] := by
  have hcb := citBody_author u srest y opt post hu1 hu2 hsur hy hyd hopt
  cases see with
  | false =>
    rw [if_neg (by simp)]
    refine scanLine_single pre _ post _ hpre hpost ?_
    have hshape : ((u :: srest) ++ ' ' :: (y ++ opt)) ++ ')' :: post =
        u :: ((srest ++ ' ' :: (y ++ opt)) ++ ')' :: post) := by simp
    rw [hshape, afterParen_no_see (by intro he; subst he; exact absurd hu2 (by decide)) _,
      ← hshape]
    exact hcb
  | true =>
    rw [if_pos (by simp)]
    refine scanLine_single pre _ post _ hpre hpost ?_
    have hshape : ('s' :: 'e' :: 'e' :: ws :: ((u :: srest) ++ ' ' :: (y ++ opt))) ++
        ')' :: post =
        's' :: 'e' :: 'e' :: ws :: (((u :: srest) ++ ' ' :: (y ++ opt)) ++ ')' :: post) := by
      simp
    rw [hshape]
    exact afterParen_see ws _ _ _ hws hcb

theorem getLast?_append_right {α : Type} (A B : List α) (hB : B ≠ []) :
    (A ++ B).getLast? = B.getLast? := by
  rw [List.getLast?_append]
  cases hb : B.getLast? with
  | none => exact absurd (List.getLast?_eq_none_iff.mp hb) hB
  | some a => rfl

theorem nl_not_mem_line (pre post inner : List Char)
    (hp : '\n' ∉ pre) (hq : '\n' ∉ post) (hc : '\n' ∉ inner) :
    '\n' ∉ pre ++ '(' :: (inner ++ ')' :: post) := by
  intro hm
  rcases List.mem_append.mp hm with h | h
  · exact hp h
  rcases List.mem_cons.mp h with h | h
  · exact absurd h (by decide)
  rcases List.mem_append.mp h with h | h
  · exact hc h
  rcases List.mem_cons.mp h with h | h
  · exact absurd h (by decide)
  · exact hq h

theorem line_getLast_ne_cr (pre post inner : List Char)
    (hcr : post.getLast? ≠ some '\r') :
    (pre ++ '(' :: (inner ++ ')' :: post)).getLast? ≠ some '\r' := by
  have hshape : pre ++ '(' :: (inner ++ ')' :: post) =
      (pre ++ '(' :: inner) ++ ')' :: post := by simp
  rw [hshape, getLast?_append_right _ _ (by simp)]
  cases post with
  | nil => simp
  | cons p ps =>
    rw [List.getLast?_cons_cons]
    exact hcr

/-- The plain author-year marker `(Surname YYYY)`, no `see`, no locator. -/
theorem scanLine_marker_plain (pre post : List Char) (u : Char) (srest y : List Char)
    (hpre : '(' ∉ pre) (hpost : '(' ∉ post)
    (hu1 : 'A' ≤ u) (hu2 : u ≤ 'Z')
    (hsur : ∀ c ∈ u :: srest, c.isDigit = false ∧ c ≠ '(' ∧ c ≠ ')')
    (hy : y ≠ []) (hyd : ∀ c ∈ y, c.isDigit = true) :
    scanLine (pre ++ '(' :: (((u :: srest) ++ ' ' :: y) ++ ')' :: post)) =
      [String.mk (trimChars ((u :: srest) ++ ' ' :: y))] := by
  have m := scanLine_marker pre post false ' ' u srest y [] hpre hpost hu1 hu2 hsur
    hy hyd (Or.inl rfl) (by decide)
  simpa using m

/-- The marker `(see Surname YYYY, locator)`: a leading `see` plus a
whitespace and a comma-introduced locator free of `)`. -/
theorem scanLine_marker_see_loc (pre post : List Char) (u : Char)
    (srest y loc : List Char)
    (hpre : '(' ∉ pre) (hpost : '(' ∉ post)
    (hu1 : 'A' ≤ u) (hu2 : u ≤ 'Z')
    (hsur : ∀ c ∈ u :: srest, c.isDigit = false ∧ c ≠ '(' ∧ c ≠ ')')
    (hy : y ≠ []) (hyd : ∀ c ∈ y, c.isDigit = true)
    (hloc : ∀ c ∈ loc, c ≠ ')') :
    scanLine (pre ++ '(' ::
        (('s' :: 'e' :: 'e' :: ' ' :: ((u :: srest) ++ ' ' :: (y ++ ',' :: loc))) ++
          ')' :: post)) =
      [String.mk (trimChars ((u :: srest) ++ ' ' :: (y ++ ',' :: loc)))] := by
  have m := scanLine_marker pre post true ' ' u srest y (',' :: loc) hpre hpost hu1 hu2
    hsur hy hyd (Or.inr ⟨loc, rfl, hloc⟩) (by decide)
  simpa using m

theorem checkParenAux_iff :
    ∀ (cs : List Char) (b : Nat),
      (checkParenAux (b : Int) cs = true ↔
        ((∀ n : Nat, (cs.take n).count ')' ≤ b + (cs.take n).count '(') ∧
          b + cs.count '(' = cs.count ')'))
  | [], b => by
    simp only [checkParenAux, List.take_nil, List.count_nil]
    constructor
    · intro h
      have hb0 : b = 0 := by
        have hb : ((b : Int) == 0) = true := h
        simp only [beq_iff_eq] at hb
        exact_mod_cast hb
      subst hb0
      exact ⟨fun n => by simp, by simp⟩
    · rintro ⟨h1, h2⟩
      have hb0 : b = 0 := by omega
      subst hb0
      decide
  | c :: rest, b => by
    simp only [checkParenAux]
    by_cases hc1 : c = '('
    · subst hc1
      rw [if_pos rfl, if_neg (show ¬((b : Int) + 1 < 0) by omega),
        show ((b : Int) + 1) = ((b + 1 : Nat) : Int) from by push_cast; ring,
        checkParenAux_iff rest (b + 1)]
      constructor
      · rintro ⟨h1, h2⟩
        constructor
        · intro n
          cases n with
          | zero => simp
          | succ m =>
            have hm := h1 m
            simp only [List.take_succ_cons, List.count_cons]
            simp
            omega
        · simp only [List.count_cons]
          simp
          omega
      · rintro ⟨h1, h2⟩
        constructor
        · intro m
          have hm := h1 (m + 1)
          simp only [List.take_succ_cons, List.count_cons] at hm
          simp at hm
          omega
        · simp only [List.count_cons] at h2
          simp at h2
          omega
    · by_cases hc2 : c = ')'
      · subst hc2
        rw [if_neg hc1, if_pos rfl]
        cases b with
        | zero =>
          rw [if_pos (by decide)]
          constructor
          · intro h
            exact absurd h (by decide)
          · rintro ⟨h1, h2⟩
            have hm := h1 1
            simp [List.count_cons] at hm
        | succ b' =>
          rw [if_neg (show ¬(((b' + 1 : Nat) : Int) - 1 < 0) by push_cast; omega),
            show (((b' + 1 : Nat) : Int) - 1) = ((b' : Nat) : Int) from by push_cast; ring,
            checkParenAux_iff rest b']
          constructor
          · rintro ⟨h1, h2⟩
            constructor
            · intro n
              cases n with
              | zero => simp
              | succ m =>
                have hm := h1 m
                simp only [List.take_succ_cons, List.count_cons]
                simp
                omega
            · simp only [List.count_cons]
              simp
              omega
          · rintro ⟨h1, h2⟩
            constructor
            · intro m
              have hm := h1 (m + 1)
              simp only [List.take_succ_cons, List.count_cons] at hm
              simp at hm
              omega
            · simp only [List.count_cons] at h2
              simp at h2
              omega
      · rw [if_neg hc1, if_neg hc2, if_neg (show ¬((b : Int) < 0) by omega),
          checkParenAux_iff rest b]
        constructor
        · rintro ⟨h1, h2⟩
          constructor
          · intro n
            cases n with
            | zero => simp
            | succ m =>
              have hm := h1 m
              simp only [List.take_succ_cons, List.count_cons]
              simp [hc1, hc2]
              omega
          · simp only [List.count_cons]
            simp [hc1, hc2]
            omega
        · rintro ⟨h1, h2⟩
          constructor
          · intro m
            have hm := h1 (m + 1)
            simp only [List.take_succ_cons, List.count_cons] at hm
            simp [hc1, hc2] at hm
            omega
          · simp only [List.count_cons] at h2
            simp [hc1, hc2] at h2
            omega

theorem band_split {a b : Bool} (h : (a && b) = true) : a = true ∧ b = true := by
  simp at h
  exact h

theorem band_intro {a b : Bool} (h1 : a = true) (h2 : b = true) : (a && b) = true := by
  simp [h1, h2]

theorem collapse2_head : ∀ cs : List Char, (collapse2 cs).head? = cs.head?
  | [] => rfl
  | [_] => rfl
  | a :: b :: rest => by
    show (if a = '.' ∧ b = '.' then '.' :: collapse2 rest
      else a :: collapse2 (b :: rest)).head? = some a
    split
    next h => simp [h.1]
    next h => simp

theorem noDD_tail {x : Char} {ys : List Char} (h : noDD (x :: ys) = true) :
    noDD ys = true := by
  cases ys with
  | nil => rfl
  | cons b rest =>
    have hb : (!(x == '.' && b == '.') && noDD (b :: rest)) = true := h
    exact (band_split hb).2

theorem noDDD_tail {x : Char} {ys : List Char} (h : noDDD (x :: ys) = true) :
    noDDD ys = true := by
  cases ys with
  | nil => rfl
  | cons b rest =>
    cases rest with
    | nil => rfl
    | cons c rest2 =>
      have hb : (!(x == '.' && b == '.' && c == '.') && noDDD (b :: c :: rest2)) = true := h
      exact (band_split hb).2

theorem noDD_collapse2 : ∀ cs : List Char, noDDD cs = true → noDD (collapse2 cs) = true
  | [], _ => rfl
  | [_], _ => rfl
  | a :: b :: rest, h => by
    show noDD (if a = '.' ∧ b = '.' then '.' :: collapse2 rest
      else a :: collapse2 (b :: rest)) = true
    split
    next hab =>
      cases rest with
      | nil => rfl
      | cons c rest2 =>
        have h1 : (!(a == '.' && b == '.' && c == '.') && noDDD (b :: c :: rest2)) = true := h
        obtain ⟨hc1, hc2⟩ := band_split h1
        have hcne : (c == '.') = false := by
          rw [hab.1, hab.2] at hc1
          simpa using hc1
        have ih := noDD_collapse2 (c :: rest2) (noDDD_tail hc2)
        have hhead := collapse2_head (c :: rest2)
        cases hcc : collapse2 (c :: rest2) with
        | nil => rfl
        | cons x xs =>
          rw [hcc] at hhead ih
          have hx : x = c := by simpa using hhead
          show (!('.' == '.' && x == '.') && noDD (x :: xs)) = true
          refine band_intro ?_ ih
          rw [hx, hcne]
          rfl
    next hab =>
      have ih := noDD_collapse2 (b :: rest) (noDDD_tail h)
      have hhead := collapse2_head (b :: rest)
      cases hcc : collapse2 (b :: rest) with
      | nil => rfl
      | cons x xs =>
        rw [hcc] at hhead ih
        have hx : x = b := by simpa using hhead
        show (!(a == '.' && x == '.') && noDD (x :: xs)) = true
        refine band_intro ?_ ih
        subst hx
        have hfalse : (a == '.' && x == '.') = false := by
          by_cases ha : a = '.'
          · by_cases hb2 : x = '.'
            · exact absurd ⟨ha, hb2⟩ hab
            · simp [hb2]
          · simp [ha]
        rw [hfalse]
        rfl

theorem collapse3_id : ∀ cs : List Char, noDD cs = true → collapse3 cs = cs
  | [], _ => rfl
  | [_], _ => rfl
  | [_, _], _ => rfl
  | a :: b :: c :: rest, h => by
    show (if a = '.' ∧ b = '.' ∧ c = '.' then '.' :: collapse3 rest
      else a :: collapse3 (b :: c :: rest)) = a :: b :: c :: rest
    have h1 : (!(a == '.' && b == '.') && noDD (b :: c :: rest)) = true := h
    obtain ⟨hc1, hc2⟩ := band_split h1
    rw [if_neg]
    · rw [collapse3_id (b :: c :: rest) hc2]
    · rintro ⟨ha, hb, -⟩
      rw [ha, hb] at hc1
      simp at hc1

theorem collapse4_id : ∀ cs : List Char, noDD cs = true → collapse4 cs = cs
  | [], _ => rfl
  | [_], _ => rfl
  | [_, _], _ => rfl
  | [_, _, _], _ => rfl
  | a :: b :: c :: d :: rest, h => by
    show (if a = '.' ∧ b = '.' ∧ c = '.' ∧ d = '.' then '.' :: collapse4 rest
      else a :: collapse4 (b :: c :: d :: rest)) = a :: b :: c :: d :: rest
    have h1 : (!(a == '.' && b == '.') && noDD (b :: c :: d :: rest)) = true := h
    obtain ⟨hc1, hc2⟩ := band_split h1
    rw [if_neg]
    · rw [collapse4_id (b :: c :: d :: rest) hc2]
    · rintro ⟨ha, hb, -⟩
      rw [ha, hb] at hc1
      simp at hc1

/-! ### Order and sorting lemmas -/

theorem charListLe_total : ∀ a b : List Char, charListLe a b = true ∨ charListLe b a = true
  | [], _ => Or.inl rfl
  | _ :: _, [] => Or.inr rfl
  | a :: as1, b :: bs => by
    by_cases h : a = b
    · subst h
      simpa [charListLe] using charListLe_total as1 bs
    · rcases lt_trichotomy a b with hlt | heq | hgt
      · left; simp [charListLe, h, hlt]
      · exact absurd heq h
      · right; simp [charListLe, Ne.symm h, hgt]

theorem charListLe_antisymm :
    ∀ {a b : List Char}, charListLe a b = true → charListLe b a = true → a = b
  | [], [], _, _ => rfl
  | [], _ :: _, _, h2 => by simp [charListLe] at h2
  | _ :: _, [], h1, _ => by simp [charListLe] at h1
  | a :: as1, b :: bs, h1, h2 => by
    by_cases h : a = b
    · subst h
      simp only [charListLe, if_pos rfl] at h1 h2
      exact congrArg (a :: ·) (charListLe_antisymm h1 h2)
    · simp only [charListLe, if_neg h, decide_eq_true_eq] at h1
      simp only [charListLe, if_neg (Ne.symm h), decide_eq_true_eq] at h2
      exact absurd h2 (lt_asymm h1)

theorem charListLe_trans :
    ∀ {a b c : List Char}, charListLe a b = true → charListLe b c = true → charListLe a c = true
  | [], _, _, _, _ => rfl
  | _ :: _, [], _, h1, _ => by simp [charListLe] at h1
  | _ :: _, _ :: _, [], _, h2 => by simp [charListLe] at h2
  | a :: as1, b :: bs, c :: cs, h1, h2 => by
    by_cases hab : a = b
    · subst hab
      simp only [charListLe, if_pos rfl] at h1
      by_cases hbc : a = c
      · subst hbc
        simp only [charListLe, if_pos rfl] at h2 ⊢
        exact charListLe_trans h1 h2
      · simpa [charListLe, hbc] using h2
    · simp only [charListLe, if_neg hab, decide_eq_true_eq] at h1
      by_cases hbc : b = c
      · subst hbc
        simp [charListLe, hab, h1]
      · simp only [charListLe, if_neg hbc, decide_eq_true_eq] at h2
        have hac : a < c := lt_trans h1 h2
        simp [charListLe, ne_of_lt hac, hac]

theorem stringLe_total (a b : String) : stringLe a b = true ∨ stringLe b a = true :=
  charListLe_total a.data b.data

theorem stringLe_antisymm {a b : String} (h1 : stringLe a b = true)
    (h2 : stringLe b a = true) : a = b := by
  cases a; cases b
  exact congrArg String.mk (charListLe_antisymm h1 h2)

theorem stringLe_trans {a b c : String} (h1 : stringLe a b = true)
    (h2 : stringLe b c = true) : stringLe a c = true :=
  charListLe_trans h1 h2

theorem insertLe_perm (le : α → α → Bool) (a : α) :
    ∀ l : List α, List.Perm (insertLe le a l) (a :: l)
  | [] => List.Perm.refl _
  | b :: rest => by
    unfold insertLe
    by_cases h : le b a = true
    · rw [if_pos h]
      exact ((insertLe_perm le a rest).cons b).trans (List.Perm.swap a b rest)
    · rw [if_neg h]

theorem foldl_insertLe_perm (le : α → α → Bool) :
    ∀ (l acc : List α),
      List.Perm (List.foldl (fun acc a => insertLe le a acc) acc l) (acc ++ l)
  | [], acc => by simp
  | x :: l, acc => by
    have h1 := foldl_insertLe_perm le l (insertLe le x acc)
    have h2 : List.Perm (insertLe le x acc ++ l) ((x :: acc) ++ l) :=
      (insertLe_perm le x acc).append_right l
    have h3 : List.Perm ((x :: acc) ++ l) (acc ++ x :: l) := by
      rw [List.cons_append]
      exact List.perm_middle.symm
    rw [List.foldl_cons]
    exact h1.trans (h2.trans h3)

theorem stableSortBy_perm (le : α → α → Bool) (l : List α) :
    List.Perm (stableSortBy le l) l := by
  simpa [stableSortBy] using foldl_insertLe_perm le l []

theorem insertLe_sorted (le : α → α → Bool)
    (htrans : ∀ a b c, le a b = true → le b c = true → le a c = true)
    (htot : ∀ a b, le a b = true ∨ le b a = true) (a : α) :
    ∀ {l : List α}, List.Pairwise (fun x y => le x y = true) l →
      List.Pairwise (fun x y => le x y = true) (insertLe le a l)
  | [], _ => List.Pairwise.cons (by simp) List.Pairwise.nil
  | b :: rest, hl => by
    rcases List.pairwise_cons.mp hl with ⟨hb, hrest⟩
    unfold insertLe
    by_cases h : le b a = true
    · rw [if_pos h]
      refine List.pairwise_cons.mpr ⟨?_, insertLe_sorted le htrans htot a hrest⟩
      intro y hy
      rcases List.mem_cons.mp ((insertLe_perm le a rest).mem_iff.mp hy) with hya | hyr
      · exact hya ▸ h
      · exact hb y hyr
    · rw [if_neg h]
      have hab : le a b = true := (htot a b).resolve_right (by simpa using h)
      refine List.pairwise_cons.mpr ⟨?_, hl⟩
      intro y hy
      rcases List.mem_cons.mp hy with hyb | hyr
      · exact hyb ▸ hab
      · exact htrans a b y hab (hb y hyr)

theorem stableSortBy_sorted (le : α → α → Bool)
    (htrans : ∀ a b c, le a b = true → le b c = true → le a c = true)
    (htot : ∀ a b, le a b = true ∨ le b a = true) (l : List α) :
    List.Pairwise (fun x y => le x y = true) (stableSortBy le l) := by
  suffices h : ∀ (l acc : List α), List.Pairwise (fun x y => le x y = true) acc →
      List.Pairwise (fun x y => le x y = true)
        (List.foldl (fun acc a => insertLe le a acc) acc l) by
    exact h l [] List.Pairwise.nil
  intro l
  induction l with
  | nil => intro acc hacc; simpa using hacc
  | cons x t ih =>
    intro acc hacc
    simpa using ih (insertLe le x acc) (insertLe_sorted le htrans htot x hacc)

theorem sorted_eq_of_perm (le : α → α → Bool) :
    ∀ {l1 l2 : List α},
      (∀ a ∈ l1, ∀ b ∈ l1, le a b = true → le b a = true → a = b) →
      List.Perm l1 l2 → List.Pairwise (fun x y => le x y = true) l1 →
      List.Pairwise (fun x y => le x y = true) l2 → l1 = l2
  | [], l2, _, hperm, _, _ => by
    rw [List.Perm.nil_eq hperm]
  | a :: t1, [], _, hperm, _, _ => by
    exact absurd hperm.eq_nil (by simp)
  | a :: t1, b :: t2, hanti, hperm, h1, h2 => by
    rcases List.pairwise_cons.mp h1 with ⟨ha, ht1⟩
    rcases List.pairwise_cons.mp h2 with ⟨hb, ht2⟩
    have hab : a = b := by
      have hamem : a ∈ b :: t2 := hperm.mem_iff.mp (List.mem_cons_self a t1)
      have hbmem : b ∈ a :: t1 := hperm.symm.mem_iff.mp (List.mem_cons_self b t2)
      rcases List.mem_cons.mp hamem with h | hat2
      · exact h
      rcases List.mem_cons.mp hbmem with h | hbt1
      · exact h.symm
      exact hanti a (List.mem_cons_self a t1) b (List.mem_cons.mpr (Or.inr hbt1))
        (ha b hbt1) (hb a hat2)
    subst hab
    have htperm : List.Perm t1 t2 := hperm.cons_inv
    have heq : t1 = t2 := by
      refine sorted_eq_of_perm le ?_ htperm ht1 ht2
      intro x hx y hy
      exact hanti x (List.mem_cons.mpr (Or.inr hx)) y (List.mem_cons.mpr (Or.inr hy))
    rw [heq]

/-! ### Map model lemmas -/

theorem mapGet_insert_self (m : List (String × String)) (k v : String) :
    mapGet (mapInsert m k v) k = some v := by
  simp [mapGet, mapInsert, List.find?_cons]

theorem mapGet_insert_ne (m : List (String × String)) {k k' : String} (v : String)
    (h : k' ≠ k) : mapGet (mapInsert m k v) k' = mapGet m k' := by
  simp only [mapGet, mapInsert, List.find?_cons]
  have : (k == k') = false := by simpa using Ne.symm h
  simp [this]

theorem mapGet_nil (k : String) : mapGet [] k = none := rfl

/-! ### mapM lemmas -/

theorem mapM_congr {α β : Type} {f g : α → Option β} :
    ∀ {l : List α}, (∀ a ∈ l, f a = g a) → l.mapM f = l.mapM g
  | [], _ => rfl
  | x :: t, h => by
    rw [List.mapM_cons, List.mapM_cons, h x (List.mem_cons_self x t),
      mapM_congr (fun a ha => h a (List.mem_cons.mpr (Or.inr ha)))]

theorem mapM_get_some {α β : Type} {f : α → Option β} :
    ∀ {l : List α} {out : List β} {i : Nat} {a : α},
      l.mapM f = some out → l.get? i = some a →
      ∃ b, f a = some b ∧ out.get? i = some b
  | [], _, _, _, _, hget => by simp at hget
  | x :: t, out, i, a, hmap, hget => by
    rw [List.mapM_cons] at hmap
    cases hfx : f x with
    | none => rw [hfx] at hmap; simp at hmap
    | some b0 =>
      rw [hfx] at hmap
      cases hmt : t.mapM f with
      | none => rw [hmt] at hmap; simp at hmap
      | some outt =>
        rw [hmt] at hmap
        have hout : b0 :: outt = out := by simpa using hmap
        subst hout
        match i, hget with
        | 0, hget =>
          simp only [List.get?_cons_zero, Option.some.injEq] at hget
          exact ⟨b0, hget ▸ hfx, rfl⟩
        | Nat.succ j, hget =>
          simp only [List.get?_cons_succ] at hget
          obtain ⟨b, hb, hout⟩ := mapM_get_some hmt hget
          exact ⟨b, hb, by simpa using hout⟩

/-! ### Structure of the citation groups -/

/-- All citations of `citations` whose author-year key is `k`. -/
def keyFilter (citations : List MatchedCitation) (k : String) : List MatchedCitation :=
  citations.filter (fun c => author_year_key c == some k)

theorem mem_keyFilter {citations : List MatchedCitation} {k : String} {c : MatchedCitation} :
    c ∈ keyFilter citations k ↔ c ∈ citations ∧ author_year_key c = some k := by
  simp [keyFilter]

theorem keyFilter_append_one (citations : List MatchedCitation) (c : MatchedCitation)
    (k : String) :
    keyFilter (citations ++ [c]) k =
      keyFilter citations k ++ (if author_year_key c = some k then [c] else []) := by
  simp only [keyFilter, List.filter_append]
  by_cases h : author_year_key c = some k
  · simp [h]
  · simp [h]

theorem nodup_fst_inj {gs : List (String × List MatchedCitation)}
    (hnd : (gs.map Prod.fst).Nodup) :
    ∀ p ∈ gs, ∀ q ∈ gs, p.1 = q.1 → p = q := by
  induction gs with
  | nil => intro p hp; simp at hp
  | cons g rest ih =>
    simp only [List.map_cons, List.nodup_cons] at hnd
    intro p hp q hq hpq
    rcases List.mem_cons.mp hp with hp1 | hp2 <;> rcases List.mem_cons.mp hq with hq1 | hq2
    · rw [hp1, hq1]
    · exact absurd (List.mem_map.mpr ⟨q, hq2, (hp1 ▸ hpq).symm⟩) hnd.1
    · exact absurd (List.mem_map.mpr ⟨p, hp2, (hq1 ▸ hpq)⟩) hnd.1
    · exact ih hnd.2 p hp2 q hq2 hpq

theorem insertGroup_keys (k : String) (c : MatchedCitation) :
    ∀ acc : List (String × List MatchedCitation),
      (insertGroup k c acc).map Prod.fst =
        if k ∈ acc.map Prod.fst then acc.map Prod.fst else acc.map Prod.fst ++ [k]
  | [] => by simp [insertGroup]
  | (k0, g) :: rest => by
    by_cases h : k0 = k
    · subst h
      simp [insertGroup]
    · simp only [insertGroup, if_neg h, List.map_cons, insertGroup_keys k c rest]
      by_cases hmem : k ∈ rest.map Prod.fst
      · simp [hmem, Ne.symm h]
      · simp [hmem, Ne.symm h]

theorem insertGroup_content (k : String) (c : MatchedCitation) (past : List MatchedCitation)
    (hk : author_year_key c = some k) :
    ∀ acc : List (String × List MatchedCitation),
      ((acc.map Prod.fst).Nodup) →
      (∀ q ∈ acc, q.2 = keyFilter past q.1) →
      (k ∉ acc.map Prod.fst → keyFilter past k = []) →
      ∀ p ∈ insertGroup k c acc, p.2 = keyFilter (past ++ [c]) p.1
  | [], _, _, hmiss => by
    intro p hp
    simp only [insertGroup, List.mem_singleton] at hp
    subst hp
    rw [keyFilter_append_one, hmiss (by simp), if_pos hk]
    rfl
  | (k0, g) :: rest, hnd, hacc, hmiss => by
    simp only [List.map_cons, List.nodup_cons] at hnd
    intro p hp
    by_cases h : k0 = k
    · subst h
      simp only [insertGroup, if_pos rfl] at hp
      rcases List.mem_cons.mp hp with hp1 | hp2
      · subst hp1
        rw [keyFilter_append_one, if_pos hk,
          ← hacc (k0, g) (List.mem_cons_self _ _)]
      · have hq := hacc p (List.mem_cons.mpr (Or.inr hp2))
        have hne : author_year_key c ≠ some p.1 := by
          rw [hk]
          intro hcontra
          have hp1 : p.1 ∈ rest.map Prod.fst := List.mem_map.mpr ⟨p, hp2, rfl⟩
          have heq : k0 = p.1 := Option.some.inj hcontra
          exact hnd.1 (by rw [heq]; exact hp1)
        rw [keyFilter_append_one, if_neg hne, List.append_nil, hq]
    · simp only [insertGroup, if_neg h] at hp
      rcases List.mem_cons.mp hp with hp1 | hp2
      · subst hp1
        have hne : author_year_key c ≠ some k0 := by
          rw [hk]; intro hcontra
          exact h (Option.some.injEq k k0 ▸ hcontra).symm
        rw [keyFilter_append_one, if_neg hne, List.append_nil]
        exact hacc (k0, g) (List.mem_cons_self _ _)
      · refine insertGroup_content k c past hk rest hnd.2
          (fun q hq => hacc q (List.mem_cons.mpr (Or.inr hq))) ?_ p hp2
        intro hkr
        refine hmiss ?_
        simp only [List.map_cons, List.mem_cons]
        rintro (h1 | h2)
        · exact h h1.symm
        · exact hkr h2

theorem insertGroup_nonempty (k : String) (c : MatchedCitation) :
    ∀ acc : List (String × List MatchedCitation),
      (∀ q ∈ acc, q.2 ≠ []) →
      ∀ p ∈ insertGroup k c acc, p.2 ≠ []
  | [], _ => by
    intro p hp
    simp only [insertGroup, List.mem_singleton] at hp
    subst hp
    simp
  | (k0, g) :: rest, hne => by
    intro p hp
    by_cases h : k0 = k
    · subst h
      simp only [insertGroup, if_pos rfl] at hp
      rcases List.mem_cons.mp hp with hp1 | hp2
      · subst hp1; simp
      · exact hne p (List.mem_cons.mpr (Or.inr hp2))
    · simp only [insertGroup, if_neg h] at hp
      rcases List.mem_cons.mp hp with hp1 | hp2
      · subst hp1; exact hne (k0, g) (List.mem_cons_self _ _)
      · exact insertGroup_nonempty k c rest
          (fun q hq => hne q (List.mem_cons.mpr (Or.inr hq))) p hp2

theorem buildGroupsAux_inv :
    ∀ (cs : List MatchedCitation) (acc : List (String × List MatchedCitation))
      (past : List MatchedCitation),
      (∀ c ∈ cs, author_year_key c ≠ none) →
      ((acc.map Prod.fst).Nodup) →
      (∀ q ∈ acc, q.2 = keyFilter past q.1) →
      (∀ k, k ∉ acc.map Prod.fst → keyFilter past k = []) →
      (∀ q ∈ acc, q.2 ≠ []) →
      ∃ gs, buildGroupsAux acc cs = some gs ∧
        ((gs.map Prod.fst).Nodup) ∧
        (∀ q ∈ gs, q.2 = keyFilter (past ++ cs) q.1) ∧
        (∀ k, k ∉ gs.map Prod.fst → keyFilter (past ++ cs) k = []) ∧
        (∀ q ∈ gs, q.2 ≠ [])
  | [], acc, past, _, hnd, hacc, hmiss, hne =>
    ⟨acc, rfl, hnd, by simpa using hacc, by simpa using hmiss, hne⟩
  | c :: rest, acc, past, hsafe, hnd, hacc, hmiss, hne => by
    obtain ⟨k, hk⟩ := Option.ne_none_iff_exists'.mp (hsafe c (List.mem_cons_self c rest))
    have hstep : buildGroupsAux acc (c :: rest) = buildGroupsAux (insertGroup k c acc) rest := by
      simp [buildGroupsAux, hk]
    have hnd1 : ((insertGroup k c acc).map Prod.fst).Nodup := by
      rw [insertGroup_keys]
      by_cases hmem : k ∈ acc.map Prod.fst
      · simpa [hmem] using hnd
      · simp only [if_neg hmem]
        exact List.Nodup.append hnd (by simp) (by simpa [List.disjoint_singleton] using hmem)
    have hacc1 : ∀ q ∈ insertGroup k c acc, q.2 = keyFilter (past ++ [c]) q.1 :=
      insertGroup_content k c past hk acc hnd hacc (hmiss k)
    have hmiss1 : ∀ k', k' ∉ (insertGroup k c acc).map Prod.fst →
        keyFilter (past ++ [c]) k' = [] := by
      intro k' hk'
      rw [insertGroup_keys] at hk'
      have hk'acc : k' ∉ acc.map Prod.fst := by
        by_cases hmem : k ∈ acc.map Prod.fst
        · simpa [hmem] using hk'
        · simp only [if_neg hmem, List.mem_append] at hk'
          exact fun hcon => hk' (Or.inl hcon)
      have hk'k : k' ≠ k := by
        by_cases hmem : k ∈ acc.map Prod.fst
        · intro hcon; exact hk'acc (hcon ▸ hmem)
        · simp only [if_neg hmem, List.mem_append] at hk'
          intro hcon
          exact hk' (Or.inr (by simp [hcon]))
      rw [keyFilter_append_one, hmiss k' hk'acc, if_neg (by rw [hk]; simpa using Ne.symm hk'k)]
      simp
    have hne1 : ∀ q ∈ insertGroup k c acc, q.2 ≠ [] := insertGroup_nonempty k c acc hne
    obtain ⟨gs, hgs, h1, h2, h3, h4⟩ := buildGroupsAux_inv rest (insertGroup k c acc)
      (past ++ [c]) (fun c' hc' => hsafe c' (List.mem_cons.mpr (Or.inr hc')))
      hnd1 hacc1 hmiss1 hne1
    refine ⟨gs, by rw [hstep, hgs], h1, ?_, ?_, h4⟩
    · intro q hq
      simpa [List.append_assoc] using h2 q hq
    · intro k' hk'
      simpa [List.append_assoc] using h3 k' hk'

/-- The grouping pass of `disambiguate_matched_citations` produces, when no
key computation panics, groups with pairwise distinct keys, each group being
exactly the input citations carrying its key, and every key of an input
citation appearing among the groups. -/
theorem buildGroups_spec (cs : List MatchedCitation)
    (hsafe : ∀ c ∈ cs, author_year_key c ≠ none) :
    ∃ gs, buildGroups cs = some gs ∧
      ((gs.map Prod.fst).Nodup) ∧
      (∀ q ∈ gs, q.2 = keyFilter cs q.1) ∧
      (∀ k, k ∉ gs.map Prod.fst → keyFilter cs k = []) ∧
      (∀ q ∈ gs, q.2 ≠ []) := by
  obtain ⟨gs, hgs, h1, h2, h3, h4⟩ :=
    buildGroupsAux_inv cs [] [] hsafe (by simp) (by simp)
      (by intro k _; simp [keyFilter]) (by simp)
  exact ⟨gs, hgs, h1, by simpa using h2, by simpa using h3, h4⟩

/-! ### Safety of the per-citation computations -/

theorem author_year_key_components {mc : MatchedCitation} {k : String}
    (h : author_year_key mc = some k) :
    ∃ a0 rest d y, mc.entry.author = some (a0 :: rest) ∧ mc.entry.date = some d ∧
      extract_year_from_date d mc.entry.key = .ok y ∧
      k = a0.name ++ "-" ++ yearToString y := by
  cases hA : mc.entry.author with
  | none => simp [author_year_key, hA] at h
  | some authors =>
    cases authors with
    | nil => simp [author_year_key, hA] at h
    | cons a0 rest =>
      cases hD : mc.entry.date with
      | none => simp [author_year_key, hA, hD] at h
      | some d =>
        cases hY : extract_year_from_date d mc.entry.key with
        | error e => simp [author_year_key, hA, hD, hY, Except.toOption] at h
        | ok y =>
          simp only [author_year_key, hA, hD, hY, Except.toOption,
            Option.bind_eq_bind, Option.some_bind, List.head?_cons,
            Option.some.injEq] at h
          exact ⟨a0, rest, d, y, rfl, rfl, hY, h.symm⟩

theorem format_authors_cons (a0 : Person) (rest : List Person) :
    ∃ s, format_authors (a0 :: rest) = some s := by
  match rest with
  | [] => exact ⟨_, rfl⟩
  | [b] => exact ⟨_, rfl⟩
  | b :: c :: t => exact ⟨_, rfl⟩

theorem extract_date_of_key {mc : MatchedCitation} {k : String}
    (h : author_year_key mc = some k) : ∃ y, extract_date mc.entry = some y := by
  obtain ⟨a0, rest, d, y, hA, hD, hY, _⟩ := author_year_key_components h
  exact ⟨y, by simp [extract_date, hA, hD, hY, Except.toOption]⟩

theorem create_disambiguated_citation_of_key {mc : MatchedCitation} {k : String}
    (h : author_year_key mc = some k) (letter : Char) :
    ∃ s, create_disambiguated_citation letter mc.entry = some s := by
  obtain ⟨a0, rest, d, y, hA, hD, hY, _⟩ := author_year_key_components h
  obtain ⟨fa, hfa⟩ := format_authors_cons a0 rest
  refine ⟨fa ++ " " ++ yearToString y ++ String.mk [letter], ?_⟩
  simp [create_disambiguated_citation, hA, hfa, extract_date, hD, hY, Except.toOption]

theorem create_disambiguated_year_of_key {mc : MatchedCitation} {k : String}
    (h : author_year_key mc = some k) (letter : Char) :
    ∃ s, create_disambiguated_year letter mc.entry = some s := by
  obtain ⟨y, hy⟩ := extract_date_of_key h
  refine ⟨yearToString y ++ String.mk [letter], ?_⟩
  simp [create_disambiguated_year, hy]

theorem create_standard_citation_of_key {mc : MatchedCitation} {k : String}
    (h : author_year_key mc = some k) :
    ∃ s, create_standard_citation mc.citation_raw mc.entry = some s := by
  obtain ⟨a0, rest, d, y, hA, hD, hY, _⟩ := author_year_key_components h
  by_cases hat : startsWithAt mc.citation_raw = true
  · refine ⟨a0.name ++ " " ++ yearToString y, ?_⟩
    simp [create_standard_citation, hat, hA, hD, hY, Except.toOption]
  · exact ⟨mc.citation_raw, by simp [create_standard_citation, hat]⟩

/-! ### The values each group writes into the disambiguation maps -/

/-- The display value the map pass records for citation `c` of group `g`. -/
def groupDisplay (g : List MatchedCitation) (c : MatchedCitation) : Option String :=
  if g.length > 1 then
    (idxOfRaw c.citation_raw (stableSortBy entryKeyLe g)).bind
      (fun i => create_disambiguated_citation (suffixLetter i) c.entry)
  else create_standard_citation c.citation_raw c.entry

/-- The year value the map pass records for citation `c` of group `g`
(`none` for a singleton group, which records no year binding). -/
def groupYear (g : List MatchedCitation) (c : MatchedCitation) : Option String :=
  if g.length > 1 then
    (idxOfRaw c.citation_raw (stableSortBy entryKeyLe g)).bind
      (fun i => create_disambiguated_year (suffixLetter i) c.entry)
  else none

theorem idxOfRaw_of_get :
    ∀ {l : List MatchedCitation} {j : Nat} {c : MatchedCitation},
      ((l.map (fun c => c.citation_raw)).Nodup) → l.get? j = some c →
      idxOfRaw c.citation_raw l = some j
  | [], j, c, _, hget => by simp at hget
  | c0 :: rest, 0, c, _, hget => by
    simp only [List.get?_cons_zero, Option.some.injEq] at hget
    subst hget
    simp [idxOfRaw]
  | c0 :: rest, Nat.succ j, c, hnd, hget => by
    simp only [List.get?_cons_succ] at hget
    simp only [List.map_cons, List.nodup_cons] at hnd
    have hmem : c ∈ rest := List.get?_mem hget
    have hne : c0.citation_raw ≠ c.citation_raw := by
      intro hcon
      exact hnd.1 (hcon ▸ List.mem_map.mpr ⟨c, hmem, rfl⟩)
    have : (c0.citation_raw == c.citation_raw) = false := by simpa using hne
    simp [idxOfRaw, this, idxOfRaw_of_get hnd.2 hget]

theorem assignGroup_spec :
    ∀ (l : List MatchedCitation) (i : Nat) (cmap ymap : List (String × String)),
      (∀ c ∈ l, author_year_key c ≠ none) →
      ∃ cmap' ymap', assignGroup i l cmap ymap = some (cmap', ymap') ∧
        (∀ r, (∀ c ∈ l, c.citation_raw ≠ r) →
          mapGet cmap' r = mapGet cmap r ∧ mapGet ymap' r = mapGet ymap r) ∧
        (((l.map (fun c => c.citation_raw)).Nodup) →
          ∀ j c, l.get? j = some c →
            mapGet cmap' c.citation_raw =
              create_disambiguated_citation (suffixLetter (i + j)) c.entry ∧
            mapGet ymap' c.citation_raw =
              create_disambiguated_year (suffixLetter (i + j)) c.entry)
  | [], i, cmap, ymap, _ =>
    ⟨cmap, ymap, rfl, fun r _ => ⟨rfl, rfl⟩, by intro _ j c h; simp at h⟩
  | c0 :: rest, i, cmap, ymap, hsafe => by
    obtain ⟨k, hk⟩ :=
      Option.ne_none_iff_exists'.mp (hsafe c0 (List.mem_cons_self c0 rest))
    obtain ⟨dis0, hdis0⟩ := create_disambiguated_citation_of_key hk (suffixLetter i)
    obtain ⟨dy0, hdy0⟩ := create_disambiguated_year_of_key hk (suffixLetter i)
    obtain ⟨cmap', ymap', hrec, hframe, hhit⟩ :=
      assignGroup_spec rest (i + 1) (mapInsert cmap c0.citation_raw dis0)
        (mapInsert ymap c0.citation_raw dy0)
        (fun c hc => hsafe c (List.mem_cons.mpr (Or.inr hc)))
    refine ⟨cmap', ymap', ?_, ?_, ?_⟩
    · simp [assignGroup, hdis0, hdy0, hrec]
    · intro r hr
      obtain ⟨h1, h2⟩ := hframe r (fun c hc => hr c (List.mem_cons.mpr (Or.inr hc)))
      have hne : c0.citation_raw ≠ r := hr c0 (List.mem_cons_self c0 rest)
      rw [h1, h2, mapGet_insert_ne _ _ (Ne.symm hne), mapGet_insert_ne _ _ (Ne.symm hne)]
      exact ⟨rfl, rfl⟩
    · intro hnd j c hget
      simp only [List.map_cons, List.nodup_cons] at hnd
      match j, hget with
      | 0, hget =>
        simp only [List.get?_cons_zero, Option.some.injEq] at hget
        subst hget
        have hnotin : ∀ c' ∈ rest, c'.citation_raw ≠ c0.citation_raw := by
          intro c' hc' hcon
          exact hnd.1 (hcon ▸ List.mem_map.mpr ⟨c', hc', rfl⟩)
        obtain ⟨h1, h2⟩ := hframe c0.citation_raw hnotin
        rw [h1, h2, mapGet_insert_self, mapGet_insert_self, Nat.add_zero]
        exact ⟨hdis0.symm, hdy0.symm⟩
      | Nat.succ j, hget =>
        simp only [List.get?_cons_succ] at hget
        obtain ⟨h1, h2⟩ := hhit hnd.2 j c hget
        rw [h1, h2]
        rw [Nat.add_succ, Nat.succ_add]
        exact ⟨rfl, rfl⟩

theorem processGroup_spec (k : String) (g : List MatchedCitation)
    (maps : List (String × String) × List (String × String))
    (hne : g ≠ []) (hsafe : ∀ c ∈ g, author_year_key c ≠ none)
    (hnd : (g.map (fun c => c.citation_raw)).Nodup) :
    ∃ maps', processGroup maps (k, g) = some maps' ∧
      (∀ r, (∀ c ∈ g, c.citation_raw ≠ r) →
        mapGet maps'.1 r = mapGet maps.1 r ∧ mapGet maps'.2 r = mapGet maps.2 r) ∧
      (∀ c ∈ g,
        mapGet maps'.1 c.citation_raw = groupDisplay g c ∧
        (g.length > 1 → mapGet maps'.2 c.citation_raw = groupYear g c) ∧
        (¬ g.length > 1 →
          mapGet maps'.2 c.citation_raw = mapGet maps.2 c.citation_raw)) := by
  by_cases hlen : g.length > 1
  · have hsorted_perm := stableSortBy_perm entryKeyLe g
    have hsorted_mem : ∀ c, c ∈ stableSortBy entryKeyLe g ↔ c ∈ g :=
      fun c => hsorted_perm.mem_iff
    have hsorted_nd : ((stableSortBy entryKeyLe g).map
        (fun c => c.citation_raw)).Nodup :=
      (hsorted_perm.map (fun c => c.citation_raw)).nodup_iff.mpr hnd
    obtain ⟨cmap', ymap', hrun, hframe, hhit⟩ :=
      assignGroup_spec (stableSortBy entryKeyLe g) 0 maps.1 maps.2
        (fun c hc => hsafe c ((hsorted_mem c).mp hc))
    refine ⟨(cmap', ymap'), ?_, ?_, ?_⟩
    · simp [processGroup, if_pos hlen, hrun]
    · intro r hr
      exact hframe r (fun c hc => hr c ((hsorted_mem c).mp hc))
    · intro c hc
      obtain ⟨j, hj⟩ := List.mem_iff_get?.mp ((hsorted_mem c).mpr hc)
      obtain ⟨h1, h2⟩ := hhit hsorted_nd j c hj
      have hidx : idxOfRaw c.citation_raw (stableSortBy entryKeyLe g) = some j :=
        idxOfRaw_of_get hsorted_nd hj
      refine ⟨?_, fun _ => ?_, fun hcon => absurd hlen hcon⟩
      · rw [h1, groupDisplay, if_pos hlen, hidx, Option.some_bind, Nat.zero_add]
      · rw [h2, groupYear, if_pos hlen, hidx, Option.some_bind, Nat.zero_add]
  · obtain ⟨c0, hg⟩ : ∃ c0, g = [c0] := by
      cases g with
      | nil => exact absurd rfl hne
      | cons c0 t =>
        cases t with
        | nil => exact ⟨c0, rfl⟩
        | cons c1 t2 =>
          exfalso
          simp only [List.length_cons, gt_iff_lt, not_lt] at hlen
          omega
    subst hg
    obtain ⟨k0, hk0⟩ :=
      Option.ne_none_iff_exists'.mp (hsafe c0 (List.mem_cons_self c0 []))
    obtain ⟨std, hstd⟩ := create_standard_citation_of_key hk0
    refine ⟨(mapInsert maps.1 c0.citation_raw std, maps.2), ?_, ?_, ?_⟩
    · simp [processGroup, hstd]
    · intro r hr
      have hne0 : c0.citation_raw ≠ r := hr c0 (List.mem_cons_self c0 [])
      exact ⟨mapGet_insert_ne _ _ (Ne.symm hne0), rfl⟩
    · intro c hc
      have hceq : c = c0 := by simpa using hc
      subst hceq
      refine ⟨?_, fun hcon => absurd hcon (by simp), fun _ => rfl⟩
      rw [mapGet_insert_self, groupDisplay, if_neg (by simp)]
      exact hstd.symm

theorem buildMaps_spec :
    ∀ (gs : List (String × List MatchedCitation))
      (maps : List (String × String) × List (String × String)),
      (∀ p ∈ gs, p.2 ≠ []) →
      (∀ p ∈ gs, ∀ c ∈ p.2, author_year_key c ≠ none) →
      (∀ p ∈ gs, ((p.2.map (fun c => c.citation_raw)).Nodup)) →
      (List.Pairwise
        (fun p q => ∀ c ∈ p.2, ∀ c' ∈ q.2, c.citation_raw ≠ c'.citation_raw) gs) →
      ∃ maps', buildMaps maps gs = some maps' ∧
        (∀ r, (∀ p ∈ gs, ∀ c ∈ p.2, c.citation_raw ≠ r) →
          mapGet maps'.1 r = mapGet maps.1 r ∧ mapGet maps'.2 r = mapGet maps.2 r) ∧
        (∀ p ∈ gs, ∀ c ∈ p.2,
          mapGet maps'.1 c.citation_raw = groupDisplay p.2 c ∧
          (p.2.length > 1 → mapGet maps'.2 c.citation_raw = groupYear p.2 c) ∧
          (¬ p.2.length > 1 →
            mapGet maps'.2 c.citation_raw = mapGet maps.2 c.citation_raw))
  | [], maps, _, _, _, _ =>
    ⟨maps, rfl, fun r _ => ⟨rfl, rfl⟩, by intro p hp; simp at hp⟩
  | (k, g) :: rest, maps, hne, hsafe, hnd, hdisj => by
    obtain ⟨maps1, hrun1, hframe1, hhit1⟩ :=
      processGroup_spec k g maps (hne (k, g) (List.mem_cons_self _ _))
        (hsafe (k, g) (List.mem_cons_self _ _)) (hnd (k, g) (List.mem_cons_self _ _))
    rcases List.pairwise_cons.mp hdisj with ⟨hheaddisj, hrestdisj⟩
    obtain ⟨maps', hrun, hframe, hhit⟩ :=
      buildMaps_spec rest maps1
        (fun p hp => hne p (List.mem_cons.mpr (Or.inr hp)))
        (fun p hp => hsafe p (List.mem_cons.mpr (Or.inr hp)))
        (fun p hp => hnd p (List.mem_cons.mpr (Or.inr hp)))
        hrestdisj
    refine ⟨maps', ?_, ?_, ?_⟩
    · simp [buildMaps, hrun1, hrun]
    · intro r hr
      obtain ⟨hf1, hf2⟩ :=
        hframe r (fun p hp c hc => hr p (List.mem_cons.mpr (Or.inr hp)) c hc)
      obtain ⟨hg1, hg2⟩ :=
        hframe1 r (fun c hc => hr (k, g) (List.mem_cons_self _ _) c hc)
      exact ⟨hf1.trans hg1, hf2.trans hg2⟩
    · intro p hp c hc
      rcases List.mem_cons.mp hp with hp1 | hp2
      · subst hp1
        have hcnotrest : ∀ q ∈ rest, ∀ c' ∈ q.2, c'.citation_raw ≠ c.citation_raw := by
          intro q hq c' hc'
          exact Ne.symm (hheaddisj q hq c hc c' hc')
        obtain ⟨hf1, hf2⟩ :=
          hframe c.citation_raw (fun q hq c' hc' => hcnotrest q hq c' hc')
        obtain ⟨hh1, hh2, hh3⟩ := hhit1 c hc
        refine ⟨hf1.trans hh1, fun hlen => (hf2.trans (hh2 hlen) : _), fun hlen => ?_⟩
        exact hf2.trans (hh3 hlen)
      · obtain ⟨hh1, hh2, hh3⟩ := hhit p hp2 c hc
        refine ⟨hh1, hh2, fun hlen => ?_⟩
        have hcnotg : ∀ c' ∈ g, c'.citation_raw ≠ c.citation_raw := by
          intro c' hc' hcon
          exact hheaddisj p hp2 c' hc' c hc hcon
        obtain ⟨_, hg2⟩ := hframe1 c.citation_raw hcnotg
        exact (hh3 hlen).trans hg2

/-! ### Characterization of the disambiguation engine -/

theorem raw_inj {cs : List MatchedCitation}
    (hraw : ((cs.map (fun c => c.citation_raw)).Nodup)) :
    ∀ c ∈ cs, ∀ c' ∈ cs, c.citation_raw = c'.citation_raw → c = c' := by
  intro c hc c' hc' heq
  exact List.inj_on_of_nodup_map hraw hc hc' heq

theorem groupOf_eq_keyFilter {cs : List MatchedCitation} {mc : MatchedCitation} {k : String}
    (hk : author_year_key mc = some k) : groupOf cs mc = keyFilter cs k := by
  simp [groupOf, keyFilter, hk]

theorem buildGroupsAux_some_safe :
    ∀ (cs : List MatchedCitation) (acc gs : List (String × List MatchedCitation)),
      buildGroupsAux acc cs = some gs → ∀ c ∈ cs, author_year_key c ≠ none
  | [], _, _, _ => by intro c hc; simp at hc
  | c0 :: rest, acc, gs, h => by
    intro c hc
    cases hk : author_year_key c0 with
    | none =>
      rw [show buildGroupsAux acc (c0 :: rest) =
          (author_year_key c0).bind (fun k => buildGroupsAux (insertGroup k c0 acc) rest)
        from rfl, hk] at h
      simp at h
    | some k =>
      rcases List.mem_cons.mp hc with hc0 | hcr
      · rw [hc0, hk]; simp
      · refine buildGroupsAux_some_safe rest (insertGroup k c0 acc) gs ?_ c hcr
        rw [show buildGroupsAux acc (c0 :: rest) =
            (author_year_key c0).bind (fun k => buildGroupsAux (insertGroup k c0 acc) rest)
          from rfl, hk] at h
        simpa using h

theorem disambiguate_some_safe {cs : List MatchedCitation}
    {out : List MatchedCitationDisambiguated}
    (h : disambiguate_matched_citations cs = some out) :
    ∀ c ∈ cs, author_year_key c ≠ none := by
  cases hg : buildGroups cs with
  | none =>
    exfalso
    rw [show disambiguate_matched_citations cs =
        (buildGroups cs).bind (fun groups => (buildMaps ([], []) groups).bind
          (fun maps => cs.mapM (fun mc => do
            let disambiguated := (mapGet maps.1 mc.citation_raw).getD mc.citation_raw
            let year ←
              match mapGet maps.2 mc.citation_raw with
              | some y => some y
              | none => do
                let y ← extract_date mc.entry
                some (yearToString y)
            some { citation_raw := mc.citation_raw
                   citation_author_date_disambiguated := disambiguated
                   year_disambiguated := year
                   entry := mc.entry }))) from rfl, hg] at h
    simp at h
  | some gs => exact buildGroupsAux_some_safe cs [] gs hg

/-- Full characterization of `disambiguate_matched_citations` on inputs with
pairwise distinct raw citation strings (which the pipeline guarantees by
de-duplicating citations before matching): it equals mapping
`expectedDisambiguated` — group by author-year key, suffix letters by
position in the entry-key-sorted group when the group has more than one
citation, bare year and standard display otherwise — over the input in
order. -/
theorem disambiguate_characterization (cs : List MatchedCitation)
    (hraw : ((cs.map (fun c => c.citation_raw)).Nodup))
    (hsafe : ∀ c ∈ cs, author_year_key c ≠ none) :
    disambiguate_matched_citations cs = cs.mapM (expectedDisambiguated cs) := by
  obtain ⟨gs, hgs, hkeysnd, hcontent, hmiss, hnonempty⟩ := buildGroups_spec cs hsafe
  have hgroupsafe : ∀ p ∈ gs, ∀ c ∈ p.2, author_year_key c ≠ none := by
    intro p hp c hc
    rw [hcontent p hp] at hc
    rw [(mem_keyFilter.mp hc).2]
    simp
  have hgroupnd : ∀ p ∈ gs, ((p.2.map (fun c => c.citation_raw)).Nodup) := by
    intro p hp
    rw [hcontent p hp]
    exact List.Nodup.sublist ((List.filter_sublist cs).map _) hraw
  have hdisj : List.Pairwise
      (fun p q => ∀ c ∈ p.2, ∀ c' ∈ q.2, c.citation_raw ≠ c'.citation_raw) gs := by
    have hfst : List.Pairwise (fun p q : String × List MatchedCitation => p.1 ≠ q.1) gs :=
      List.pairwise_map.mp hkeysnd
    refine hfst.imp_of_mem ?_
    intro p q hp hq hne c hc c' hc' hcon
    rw [hcontent p hp] at hc
    rw [hcontent q hq] at hc'
    obtain ⟨hcc, hck⟩ := mem_keyFilter.mp hc
    obtain ⟨hcc', hck'⟩ := mem_keyFilter.mp hc'
    have : c = c' := raw_inj hraw c hcc c' hcc' hcon
    rw [this, hck'] at hck
    exact hne (Option.some.inj hck).symm
  obtain ⟨maps', hrun, hframe, hhit⟩ :=
    buildMaps_spec gs ([], []) hnonempty hgroupsafe hgroupnd hdisj
  have hmain : disambiguate_matched_citations cs =
      cs.mapM (fun mc => do
        let disambiguated := (mapGet maps'.1 mc.citation_raw).getD mc.citation_raw
        let year ←
          match mapGet maps'.2 mc.citation_raw with
          | some y => some y
          | none => do
            let y ← extract_date mc.entry
            some (yearToString y)
        some { citation_raw := mc.citation_raw
               citation_author_date_disambiguated := disambiguated
               year_disambiguated := year
               entry := mc.entry }) := by
    rw [show disambiguate_matched_citations cs =
        (buildGroups cs).bind (fun groups => (buildMaps ([], []) groups).bind
          (fun maps => cs.mapM (fun mc => do
            let disambiguated := (mapGet maps.1 mc.citation_raw).getD mc.citation_raw
            let year ←
              match mapGet maps.2 mc.citation_raw with
              | some y => some y
              | none => do
                let y ← extract_date mc.entry
                some (yearToString y)
            some { citation_raw := mc.citation_raw
                   citation_author_date_disambiguated := disambiguated
                   year_disambiguated := year
                   entry := mc.entry }))) from rfl, hgs]
    rw [Option.some_bind, hrun, Option.some_bind]
  rw [hmain]
  refine mapM_congr ?_
  intro mc hmc
  obtain ⟨k, hk⟩ := Option.ne_none_iff_exists'.mp (hsafe mc hmc)
  have hmcfilter : mc ∈ keyFilter cs k := mem_keyFilter.mpr ⟨hmc, hk⟩
  have hkmem : k ∈ gs.map Prod.fst := by
    by_contra hcon
    rw [hmiss k hcon] at hmcfilter
    simp at hmcfilter
  obtain ⟨p, hp, hpk⟩ := List.mem_map.mp hkmem
  have hpc : p.2 = keyFilter cs k := by rw [hcontent p hp, hpk]
  have hmcp : mc ∈ p.2 := by rw [hpc]; exact hmcfilter
  obtain ⟨hh1, hh2, hh3⟩ := hhit p hp mc hmcp
  have hgroupOf : groupOf cs mc = keyFilter cs k := groupOf_eq_keyFilter hk
  by_cases hlen : (keyFilter cs k).length > 1
  · -- a group needing disambiguation
    have hsorted_nd : (((stableSortBy entryKeyLe (keyFilter cs k)).map
        (fun c => c.citation_raw)).Nodup) := by
      refine ((stableSortBy_perm entryKeyLe (keyFilter cs k)).map
        (fun c => c.citation_raw)).nodup_iff.mpr ?_
      exact List.Nodup.sublist ((List.filter_sublist cs).map _) hraw
    have hmcsorted : mc ∈ stableSortBy entryKeyLe (keyFilter cs k) :=
      (stableSortBy_perm entryKeyLe (keyFilter cs k)).mem_iff.mpr hmcfilter
    obtain ⟨j, hj⟩ := List.mem_iff_get?.mp hmcsorted
    have hidx : idxOfRaw mc.citation_raw (stableSortBy entryKeyLe (keyFilter cs k)) =
        some j := idxOfRaw_of_get hsorted_nd hj
    obtain ⟨dis, hdis⟩ := create_disambiguated_citation_of_key hk (suffixLetter j)
    obtain ⟨dy, hdy⟩ := create_disambiguated_year_of_key hk (suffixLetter j)
    have hd1 : mapGet maps'.1 mc.citation_raw = some dis := by
      rw [hh1, hpc, groupDisplay, if_pos hlen, hidx, Option.some_bind, hdis]
    have hd2 : mapGet maps'.2 mc.citation_raw = some dy := by
      rw [hh2 (by rw [hpc]; exact hlen), hpc, groupYear, if_pos hlen, hidx,
        Option.some_bind, hdy]
    rw [hd1, hd2]
    rw [expectedDisambiguated, hgroupOf, if_pos hlen]
    rw [show sortedGroupIndex cs mc =
        idxOfRaw mc.citation_raw (stableSortBy entryKeyLe (groupOf cs mc)) from rfl,
      hgroupOf, hidx]
    simp [hdis, hdy]
  · -- a singleton group
    obtain ⟨std, hstd⟩ := create_standard_citation_of_key hk
    obtain ⟨y, hy⟩ := extract_date_of_key hk
    have hd1 : mapGet maps'.1 mc.citation_raw = some std := by
      rw [hh1, hpc, groupDisplay, if_neg hlen, hstd]
    have hd2 : mapGet maps'.2 mc.citation_raw = none := by
      rw [hh3 (by rw [hpc]; exact hlen)]
      rfl
    rw [hd1, hd2]
    rw [expectedDisambiguated, hgroupOf, if_neg hlen]
    simp [hstd, hy]

theorem mem_groupOf {cs : List MatchedCitation} {mc c : MatchedCitation} :
    c ∈ groupOf cs mc ↔ c ∈ cs ∧ author_year_key c = author_year_key mc := by
  simp [groupOf]

theorem entryKeyLe_trans (a b c : MatchedCitation) (h1 : entryKeyLe a b = true)
    (h2 : entryKeyLe b c = true) : entryKeyLe a c = true :=
  stringLe_trans h1 h2

theorem entryKeyLe_total (a b : MatchedCitation) :
    entryKeyLe a b = true ∨ entryKeyLe b a = true :=
  stringLe_total a.entry.key b.entry.key

/-- The value produced for a citation is invariant under permuting the input
list, provided raw citation strings are pairwise distinct and no two distinct
citations of one author-year group share an entry key. -/
theorem expectedDisambiguated_perm (cs cs' : List MatchedCitation) (mc : MatchedCitation)
    (hperm : List.Perm cs' cs)
    (hkeys : ∀ a ∈ cs, ∀ b ∈ cs, author_year_key a = author_year_key b →
      a.entry.key = b.entry.key → a = b) :
    expectedDisambiguated cs' mc = expectedDisambiguated cs mc := by
  have hGperm : List.Perm (groupOf cs' mc) (groupOf cs mc) := hperm.filter _
  have hlen : (groupOf cs' mc).length = (groupOf cs mc).length := hGperm.length_eq
  by_cases hL : (groupOf cs mc).length > 1
  · have hL' : (groupOf cs' mc).length > 1 := by rw [hlen]; exact hL
    have hsorted_eq : stableSortBy entryKeyLe (groupOf cs' mc) =
        stableSortBy entryKeyLe (groupOf cs mc) := by
      apply sorted_eq_of_perm entryKeyLe
      · intro a ha b hb hab hba
        have ha' : a ∈ groupOf cs' mc := (stableSortBy_perm _ _).mem_iff.mp ha
        have hb' : b ∈ groupOf cs' mc := (stableSortBy_perm _ _).mem_iff.mp hb
        obtain ⟨hac, hak⟩ := mem_groupOf.mp ha'
        obtain ⟨hbc, hbk⟩ := mem_groupOf.mp hb'
        have hkeyeq : a.entry.key = b.entry.key := stringLe_antisymm hab hba
        exact hkeys a (hperm.mem_iff.mp hac) b (hperm.mem_iff.mp hbc)
          (hak.trans hbk.symm) hkeyeq
      · exact (stableSortBy_perm _ _).trans (hGperm.trans (stableSortBy_perm _ _).symm)
      · exact stableSortBy_sorted entryKeyLe entryKeyLe_trans entryKeyLe_total _
      · exact stableSortBy_sorted entryKeyLe entryKeyLe_trans entryKeyLe_total _
    rw [expectedDisambiguated, expectedDisambiguated, if_pos hL, if_pos hL',
      sortedGroupIndex, sortedGroupIndex, hsorted_eq]
  · have hL' : ¬ (groupOf cs' mc).length > 1 := by rw [hlen]; exact hL
    rw [expectedDisambiguated, expectedDisambiguated, if_neg hL, if_neg hL']

/-- Claim C3 (amended): an author-surname+year group consisting of a single
citation gets no suffix: its `year_disambiguated` is the bare year and its
display form is the standard one — a `@`-key raw citation is rewritten to
`"{surname} {year}"` and an author-year phrase is kept unchanged.  (The
claim's further case of several distinct raw citations matched to one entry
is refuted by the counterexample: such a group has several citations and
does receive suffixes.) -/
theorem c3_singleton_group_bare_year (cs : List MatchedCitation)
    (out : List MatchedCitationDisambiguated)
    (hraw : ((cs.map (fun c => c.citation_raw)).Nodup))
    (hout : disambiguate_matched_citations cs = some out)
    (i : Nat) (mc : MatchedCitation) (hi : cs.get? i = some mc)
    (hsingle : groupOf cs mc = [mc]) :
    ∃ y std, extract_date mc.entry = some y ∧
      create_standard_citation mc.citation_raw mc.entry = some std ∧
      out.get? i = some ⟨mc.citation_raw, std, yearToString y, mc.entry⟩ ∧
      (startsWithAt mc.citation_raw = false → std = mc.citation_raw) ∧
      (startsWithAt mc.citation_raw = true →
        ∃ a0 rest, mc.entry.author = some (a0 :: rest) ∧
          std = a0.name ++ " " ++ yearToString y) := by
  have hsafe := disambiguate_some_safe hout
  have hchar := disambiguate_characterization cs hraw hsafe
  rw [hchar] at hout
  have hmc : mc ∈ cs := List.get?_mem hi
  obtain ⟨k, hk⟩ := Option.ne_none_iff_exists'.mp (hsafe mc hmc)
  obtain ⟨a0, arest, d, y0, hA, hD, hY, _⟩ := author_year_key_components hk
  obtain ⟨y, hy⟩ := extract_date_of_key hk
  obtain ⟨std, hstd⟩ := create_standard_citation_of_key hk
  have hyy : y = y0 := by
    simp only [extract_date, hD, hY, Except.toOption, Option.bind_eq_bind,
      Option.some_bind, Option.some.injEq] at hy
    omega
  obtain ⟨b, hb, houti⟩ := mapM_get_some hout hi
  have hexp : expectedDisambiguated cs mc =
      some ⟨mc.citation_raw, std, yearToString y, mc.entry⟩ := by
    rw [expectedDisambiguated, hsingle]
    simp [hstd, hy]
  rw [hexp] at hb
  refine ⟨y, std, hy, hstd, ?_, ?_, ?_⟩
  · rw [houti, ← Option.some.inj hb]
  · intro hat
    rw [create_standard_citation, hat] at hstd
    simpa using hstd.symm
  · intro hat
    simp only [create_standard_citation, hat, if_true, hA, hD, hY, Except.toOption,
      Option.bind_eq_bind, Option.some_bind, List.head?_cons,
      Option.some.injEq] at hstd
    refine ⟨a0, arest, hA, ?_⟩
    rw [hyy, ← hstd]

/-- Claim C4 (amended): a fixed point of the claim — on a fixed input list
the function is deterministic and idempotent in the sense that it is a pure
function of the list; and whenever no two distinct citations of one
author-year group share a bibliography entry key (and raw citation strings
are pairwise distinct), the disambiguated value each citation receives is
independent of the order in which the citations occur in the input list.
(When two citations of a group do share an entry key — e.g. a `@`-key form
and an author-year form of one entry — the counterexample shows the suffixes
do depend on input order.) -/
theorem c4_order_invariance (cs cs' : List MatchedCitation)
    (out out' : List MatchedCitationDisambiguated)
    (hperm : List.Perm cs' cs)
    (hraw : ((cs.map (fun c => c.citation_raw)).Nodup))
    (hkeys : ∀ a ∈ cs, ∀ b ∈ cs, author_year_key a = author_year_key b →
      a.entry.key = b.entry.key → a = b)
    (h1 : disambiguate_matched_citations cs = some out)
    (h2 : disambiguate_matched_citations cs' = some out')
    (i j : Nat) (mc : MatchedCitation)
    (hi : cs.get? i = some mc) (hj : cs'.get? j = some mc) :
    out.get? i = out'.get? j := by
  have hsafe := disambiguate_some_safe h1
  have hsafe' := disambiguate_some_safe h2
  have hraw' : ((cs'.map (fun c => c.citation_raw)).Nodup) :=
    ((hperm.map (fun c => c.citation_raw)).nodup_iff).mpr hraw
  rw [disambiguate_characterization cs hraw hsafe] at h1
  rw [disambiguate_characterization cs' hraw' hsafe'] at h2
  obtain ⟨b, hb, houti⟩ := mapM_get_some h1 hi
  obtain ⟨b', hb', houtj⟩ := mapM_get_some h2 hj
  rw [expectedDisambiguated_perm cs cs' mc hperm hkeys] at hb'
  rw [houti, houtj, ← Option.some.inj (hb.symm.trans hb')]

/-! ### Sample bibliography entries used in concrete evaluations -/

/-- A complete book entry by one author, with every rendered field present. -/
def sampleBook (key surname given : String) (y : Int) (titleStr addr pub : String) : Entry :=
  { key := key, entry_type := .book,
    author := some [{ name := surname, given_name := given }],
    date := some (.typed (.atYear y)),
    title := some [.normal titleStr],
    publisher := some [[.normal pub]],
    address := some [.normal addr],
    journal := none, volume := none, number := none, pages := none,
    translator := none, doi := some "" }

/-- Hegel 1931, key `hegel1931a`. -/
def hegelA : Entry := sampleBook "hegel1931a" "Hegel" "Georg" 1931 "Logic I" "Leipzig" "Meiner"

/-- Hegel 1931, key `hegel1931b`. -/
def hegelB : Entry := sampleBook "hegel1931b" "Hegel" "Georg" 1931 "Logic II" "Leipzig" "Meiner"

/-- Hegel 1931, key `hegel1931`, cited both by key and by author-year. -/
def hegelC : Entry := sampleBook "hegel1931" "Hegel" "Georg" 1931 "Logic" "Leipzig" "Meiner"

/-- Claim C1: for the author-year group {`hegel1931a`, `hegel1931b`} (same
surname, same year, two distinct entries), the code assigns the suffix
letters `a`, `b` in ascending key order and sets `year_disambiguated` to
`1931a`/`1931b` as the claim states, but the display form it stores is
`"Hegel, Georg.  1931a"` — the full `format_authors` rendering (given name,
trailing period, double space) — and not `"{surname} {year}{suffix}"` =
`"Hegel 1931a"`, which is what the claim, the spec and the source's own doc
comment on `create_disambiguated_citation` (`"@hegel2020logic, 123" ->
"Hegel 2020a"`) prescribe. -/
theorem c1_display_form_uses_full_author_format :
    (disambiguate_matched_citations
        [⟨"@hegel1931a", hegelA⟩, ⟨"@hegel1931b", hegelB⟩]).map
        (fun l => l.map (fun d =>
          (d.citation_author_date_disambiguated, d.year_disambiguated))) =
      some [("Hegel, Georg.  1931a", "1931a"), ("Hegel, Georg.  1931b", "1931b")] ∧
    ("Hegel, Georg.  1931a" : String) ≠ "Hegel 1931a" := by
  constructor
  · decide
  · decide

/-- Counterexample to claim C3: the group `Hegel-1931` here holds two raw
citations (`@hegel1931` and `Hegel 1931`) that both resolved to the single
entry `hegel1931`, yet the code assigns the suffixes `a`/`b` (it counts
citations, not distinct entries), so `disambiguated_year` is `1931a`/`1931b`
and not the bare `1931` the claim requires for such a group. -/
theorem c3_counterexample :
    (disambiguate_matched_citations
        [⟨"@hegel1931", hegelC⟩, ⟨"Hegel 1931", hegelC⟩]).map
        (fun l => l.map (fun d => d.year_disambiguated)) =
      some ["1931a", "1931b"] ∧
    ("1931a" : String) ≠ "1931" := by
  constructor
  · decide
  · decide

/-- Counterexample to claim C4: the same two citations resolving to the one
entry `hegel1931`, fed in the two possible input orders.  The raw citation
`"Hegel 1931"` receives the suffix `b` in one order and the suffix `a` in the
other, because the group's stable sort ties on the (equal) entry keys and so
falls back to input order: the suffix does not depend only on the sorted
bibliography keys of the group. -/
theorem c4_counterexample :
    (disambiguate_matched_citations
        [⟨"@hegel1931", hegelC⟩, ⟨"Hegel 1931", hegelC⟩]).map
        (fun l => (l.find? (fun d => d.citation_raw == "Hegel 1931")).map
          (fun d => d.year_disambiguated)) = some (some "1931b") ∧
    (disambiguate_matched_citations
        [⟨"Hegel 1931", hegelC⟩, ⟨"@hegel1931", hegelC⟩]).map
        (fun l => (l.find? (fun d => d.citation_raw == "Hegel 1931")).map
          (fun d => d.year_disambiguated)) = some (some "1931a") ∧
    ("1931b" : String) ≠ "1931a" := by
  refine ⟨by decide, by decide, by decide⟩

/-- Witness for the amended claim C3 at a concrete input: a lone author-year
citation of the entry `hegel1931` keeps its phrase and gets the bare year. -/
theorem c3_singleton_group_bare_year_witness :
    ∃ y std, extract_date hegelC = some y ∧
      create_standard_citation "Hegel 1931" hegelC = some std ∧
      ([⟨"Hegel 1931", "Hegel 1931", "1931", hegelC⟩] :
          List MatchedCitationDisambiguated).get? 0 =
        some ⟨"Hegel 1931", std, yearToString y, hegelC⟩ ∧
      (startsWithAt "Hegel 1931" = false → std = "Hegel 1931") ∧
      (startsWithAt "Hegel 1931" = true →
        ∃ a0 rest, hegelC.author = some (a0 :: rest) ∧
          std = a0.name ++ " " ++ yearToString y) :=
  c3_singleton_group_bare_year ([⟨"Hegel 1931", hegelC⟩] : List MatchedCitation)
    ([⟨"Hegel 1931", "Hegel 1931", "1931", hegelC⟩] :
      List MatchedCitationDisambiguated) (by decide) (by decide)
    0 (⟨"Hegel 1931", hegelC⟩ : MatchedCitation) (by decide) (by decide)

/-- Witness for the amended claim C4 at a concrete input: the two Hegel 1931
entries with distinct keys, fed in both orders, give the same disambiguated
value to the citation `@hegel1931a`. -/
theorem c4_order_invariance_witness :
    ([⟨"@hegel1931a", "Hegel, Georg.  1931a", "1931a", hegelA⟩,
      ⟨"@hegel1931b", "Hegel, Georg.  1931b", "1931b", hegelB⟩] :
        List MatchedCitationDisambiguated).get? 0 =
    ([⟨"@hegel1931b", "Hegel, Georg.  1931b", "1931b", hegelB⟩,
      ⟨"@hegel1931a", "Hegel, Georg.  1931a", "1931a", hegelA⟩] :
        List MatchedCitationDisambiguated).get? 1 :=
  c4_order_invariance
    ([⟨"@hegel1931a", hegelA⟩, ⟨"@hegel1931b", hegelB⟩] : List MatchedCitation)
    ([⟨"@hegel1931b", hegelB⟩, ⟨"@hegel1931a", hegelA⟩] : List MatchedCitation)
    ([⟨"@hegel1931a", "Hegel, Georg.  1931a", "1931a", hegelA⟩,
      ⟨"@hegel1931b", "Hegel, Georg.  1931b", "1931b", hegelB⟩] :
       List MatchedCitationDisambiguated)
    ([⟨"@hegel1931b", "Hegel, Georg.  1931b", "1931b", hegelB⟩,
      ⟨"@hegel1931a", "Hegel, Georg.  1931a", "1931a", hegelA⟩] :
       List MatchedCitationDisambiguated)
    (List.Perm.swap (⟨"@hegel1931a", hegelA⟩ : MatchedCitation)
      (⟨"@hegel1931b", hegelB⟩ : MatchedCitation) [])
    (by decide) (by decide) (by decide) (by decide)
    0 1 (⟨"@hegel1931a", hegelA⟩ : MatchedCitation) (by decide) (by decide)

/-- Counterexample to claim C5: for the marker `(Kant 2020, 123)` the
extraction pass returns the capture with the page locator still attached,
not the bare `Kant 2020` the claim promises; the locator is only cut (at
the first comma) by the later `create_citations_set` pass. -/
theorem c5_counterexample :
    extract_citations_from_markdown "(Kant 2020, 123)" = ["Kant 2020, 123"] ∧
    extract_citations_from_markdown "(Kant 2020, 123)" ≠ ["Kant 2020"] ∧
    create_citations_set ["Kant 2020, 123"] = ["Kant 2020"] := by
  refine ⟨by decide, by decide, by decide⟩

/-- Claim C5 (amended): in a document whose lines each hold one well-formed
author-year marker, `extract_citations_from_markdown` returns the markers'
capture groups in document order (line order, left to right), a leading
`see ` inside the parentheses is dropped, and a page locator is KEPT by
extraction; the locator is then cut at the first comma by
`create_citations_set`, which yields the bare `Surname YYYY` strings. -/
theorem c5_extraction_order_see_and_locator
    (pre1 post1 s1 y1 pre2 post2 s2 y2 loc : List Char) (u1 u2 : Char)
    (hpre1 : '(' ∉ pre1) (hpost1 : '(' ∉ post1)
    (hpre2 : '(' ∉ pre2) (hpost2 : '(' ∉ post2)
    (hu11 : 'A' ≤ u1) (hu12 : u1 ≤ 'Z') (hu21 : 'A' ≤ u2) (hu22 : u2 ≤ 'Z')
    (hs1 : ∀ c ∈ u1 :: s1, c.isDigit = false ∧ c ≠ '(' ∧ c ≠ ')' ∧ c ≠ ',' ∧ c ≠ '\n')
    (hs2 : ∀ c ∈ u2 :: s2, c.isDigit = false ∧ c ≠ '(' ∧ c ≠ ')' ∧ c ≠ ',' ∧ c ≠ '\n')
    (hy1 : y1 ≠ []) (hyd1 : ∀ c ∈ y1, c.isDigit = true)
    (hy2 : y2 ≠ []) (hyd2 : ∀ c ∈ y2, c.isDigit = true)
    (hloc : ∀ c ∈ loc, c ≠ ')' ∧ c ≠ '\n')
    (hlocws : (((',' :: loc).getLast?).map Char.isWhitespace).getD false = false)
    (hnl1 : '\n' ∉ pre1) (hnl1' : '\n' ∉ post1)
    (hnl2 : '\n' ∉ pre2) (hnl2' : '\n' ∉ post2)
    (hcr1 : post1.getLast? ≠ some '\r') (hcr2 : post2.getLast? ≠ some '\r')
    (hdiff : String.mk ((u1 :: s1) ++ ' ' :: y1) ≠ String.mk ((u2 :: s2) ++ ' ' :: y2)) :
    extract_citations_from_markdown (String.mk
        ((pre1 ++ '(' :: (((u1 :: s1) ++ ' ' :: y1) ++ ')' :: post1)) ++ '\n' ::
         (pre2 ++ '(' :: (('s' :: 'e' :: 'e' :: ' ' ::
            ((u2 :: s2) ++ ' ' :: (y2 ++ ',' :: loc))) ++ ')' :: post2)))) =
      [String.mk ((u1 :: s1) ++ ' ' :: y1),
       String.mk ((u2 :: s2) ++ ' ' :: (y2 ++ ',' :: loc))] ∧
    create_citations_set
        [String.mk ((u1 :: s1) ++ ' ' :: y1),
         String.mk ((u2 :: s2) ++ ' ' :: (y2 ++ ',' :: loc))] =
      [String.mk ((u1 :: s1) ++ ' ' :: y1), String.mk ((u2 :: s2) ++ ' ' :: y2)] := by
  have hnlc1 : '\n' ∉ (u1 :: s1) ++ ' ' :: y1 := by
    intro hm
    rcases List.mem_append.mp hm with h | h
    · exact (hs1 _ h).2.2.2.2 rfl
    rcases List.mem_cons.mp h with h | h
    · exact absurd h (by decide)
    · exact digit_ne_nl _ (hyd1 _ h) rfl
  have hnlc2 : '\n' ∉ 's' :: 'e' :: 'e' :: ' ' ::
      ((u2 :: s2) ++ ' ' :: (y2 ++ ',' :: loc)) := by
    intro hm
    rcases List.mem_cons.mp hm with h | h
    · exact absurd h (by decide)
    rcases List.mem_cons.mp h with h | h
    · exact absurd h (by decide)
    rcases List.mem_cons.mp h with h | h
    · exact absurd h (by decide)
    rcases List.mem_cons.mp h with h | h
    · exact absurd h (by decide)
    rcases List.mem_append.mp h with h | h
    · exact (hs2 _ h).2.2.2.2 rfl
    rcases List.mem_cons.mp h with h | h
    · exact absurd h (by decide)
    rcases List.mem_append.mp h with h | h
    · exact digit_ne_nl _ (hyd2 _ h) rfl
    rcases List.mem_cons.mp h with h | h
    · exact absurd h (by decide)
    · exact (hloc _ h).2 rfl
  have hln1 : '\n' ∉ pre1 ++ '(' :: ((((u1 :: s1) ++ ' ' :: y1)) ++ ')' :: post1) :=
    nl_not_mem_line pre1 post1 _ hnl1 hnl1' hnlc1
  have hln2 : '\n' ∉ pre2 ++ '(' :: (('s' :: 'e' :: 'e' :: ' ' ::
      ((u2 :: s2) ++ ' ' :: (y2 ++ ',' :: loc))) ++ ')' :: post2) :=
    nl_not_mem_line pre2 post2 _ hnl2 hnl2' hnlc2
  have hcrl1 := line_getLast_ne_cr pre1 post1
    (((u1 :: s1) ++ ' ' :: y1)) hcr1
  have hcrl2 := line_getLast_ne_cr pre2 post2
    ('s' :: 'e' :: 'e' :: ' ' :: ((u2 :: s2) ++ ' ' :: (y2 ++ ',' :: loc))) hcr2
  have hne2 : pre2 ++ '(' :: (('s' :: 'e' :: 'e' :: ' ' ::
      ((u2 :: s2) ++ ' ' :: (y2 ++ ',' :: loc))) ++ ')' :: post2) ≠ [] := by
    cases pre2 <;> simp
  -- trimming is the identity on both capture groups
  obtain ⟨d1, hd1⟩ := Option.isSome_iff_exists.mp (List.getLast?_isSome.mpr hy1)
  have hd1m : d1 ∈ y1 := List.mem_of_mem_getLast? (Option.mem_def.mpr hd1)
  have htrim1 : trimChars ((u1 :: s1) ++ ' ' :: y1) = (u1 :: s1) ++ ' ' :: y1 := by
    refine trimChars_eq_self _ (by simp [upper_not_ws u1 hu11 hu12]) ?_
    have hshape : (u1 :: s1) ++ ' ' :: y1 = ((u1 :: s1) ++ [' ']) ++ y1 := by simp
    rw [hshape, getLast?_append_right _ _ hy1, hd1]
    simp [digit_not_ws d1 (hyd1 _ hd1m)]
  have htrim2 : trimChars ((u2 :: s2) ++ ' ' :: (y2 ++ ',' :: loc)) =
      (u2 :: s2) ++ ' ' :: (y2 ++ ',' :: loc) := by
    refine trimChars_eq_self _ (by simp [upper_not_ws u2 hu21 hu22]) ?_
    have hshape : (u2 :: s2) ++ ' ' :: (y2 ++ ',' :: loc) =
        (((u2 :: s2) ++ ' ' :: y2)) ++ ',' :: loc := by simp
    rw [hshape, getLast?_append_right _ _ (by simp)]
    exact hlocws
  constructor
  · unfold extract_citations_from_markdown
    rw [show (String.mk
        ((pre1 ++ '(' :: (((u1 :: s1) ++ ' ' :: y1) ++ ')' :: post1)) ++ '\n' ::
         (pre2 ++ '(' :: (('s' :: 'e' :: 'e' :: ' ' ::
            ((u2 :: s2) ++ ' ' :: (y2 ++ ',' :: loc))) ++ ')' :: post2)))).data =
      (pre1 ++ '(' :: (((u1 :: s1) ++ ' ' :: y1) ++ ')' :: post1)) ++ '\n' ::
         (pre2 ++ '(' :: (('s' :: 'e' :: 'e' :: ' ' ::
            ((u2 :: s2) ++ ' ' :: (y2 ++ ',' :: loc))) ++ ')' :: post2)) from rfl]
    rw [rustLines_two _ _ hln1 hln2 hne2 hcrl1 hcrl2]
    rw [show ([pre1 ++ '(' :: (((u1 :: s1) ++ ' ' :: y1) ++ ')' :: post1),
         pre2 ++ '(' :: (('s' :: 'e' :: 'e' :: ' ' ::
            ((u2 :: s2) ++ ' ' :: (y2 ++ ',' :: loc))) ++ ')' :: post2)].map
        scanLine).flatten =
      scanLine (pre1 ++ '(' :: (((u1 :: s1) ++ ' ' :: y1) ++ ')' :: post1)) ++
      scanLine (pre2 ++ '(' :: (('s' :: 'e' :: 'e' :: ' ' ::
            ((u2 :: s2) ++ ' ' :: (y2 ++ ',' :: loc))) ++ ')' :: post2)) from by simp]
    rw [scanLine_marker_plain pre1 post1 u1 s1 y1 hpre1 hpost1 hu11 hu12
        (fun c hc => ⟨(hs1 c hc).1, (hs1 c hc).2.1, (hs1 c hc).2.2.1⟩) hy1 hyd1,
      scanLine_marker_see_loc pre2 post2 u2 s2 y2 loc hpre2 hpost2 hu21 hu22
        (fun c hc => ⟨(hs2 c hc).1, (hs2 c hc).2.1, (hs2 c hc).2.2.1⟩) hy2 hyd2
        (fun c hc => (hloc c hc).1),
      htrim1, htrim2]
    rfl
  · have hnc1 : ',' ∉ (u1 :: s1) ++ ' ' :: y1 := by
      intro hm
      rcases List.mem_append.mp hm with h | h
      · exact (hs1 _ h).2.2.2.1 rfl
      rcases List.mem_cons.mp h with h | h
      · exact absurd h (by decide)
      · exact absurd (hyd1 _ h) (by decide)
    have hnc2 : ',' ∉ (u2 :: s2) ++ ' ' :: y2 := by
      intro hm
      rcases List.mem_append.mp hm with h | h
      · exact (hs2 _ h).2.2.2.1 rfl
      rcases List.mem_cons.mp h with h | h
      · exact absurd h (by decide)
      · exact absurd (hyd2 _ h) (by decide)
    have htb1 : takeBeforeComma ((u1 :: s1) ++ ' ' :: y1) = (u1 :: s1) ++ ' ' :: y1 :=
      takeBeforeComma_no_comma _ hnc1
    have htb2 : takeBeforeComma ((u2 :: s2) ++ ' ' :: (y2 ++ ',' :: loc)) =
        (u2 :: s2) ++ ' ' :: y2 := by
      have hshape : (u2 :: s2) ++ ' ' :: (y2 ++ ',' :: loc) =
          (((u2 :: s2) ++ ' ' :: y2)) ++ ',' :: loc := by simp
      rw [hshape]
      exact takeBeforeComma_comma _ _ hnc2
    unfold create_citations_set
    simp only [List.foldl]
    rw [htb1, htb2]
    simp [hdiff]
    exact fun he => hdiff he.symm

/-- Witness for the amended C5 theorem: the two-line document
`before (Hegel 1977) after` / `(see Kant 1781, 123)`. -/
theorem c5_extraction_order_see_and_locator_witness :
    extract_citations_from_markdown (String.mk
        (("before ".data ++ '(' :: ((('H' :: "egel".data) ++ ' ' :: "1977".data) ++
            ')' :: " after".data)) ++ '\n' ::
         ([] ++ '(' :: (('s' :: 'e' :: 'e' :: ' ' ::
            (('K' :: "ant".data) ++ ' ' :: ("1781".data ++ ',' :: " 123".data))) ++
            ')' :: [])))) =
      [String.mk (('H' :: "egel".data) ++ ' ' :: "1977".data),
       String.mk (('K' :: "ant".data) ++ ' ' :: ("1781".data ++ ',' :: " 123".data))] ∧
    create_citations_set
        [String.mk (('H' :: "egel".data) ++ ' ' :: "1977".data),
         String.mk (('K' :: "ant".data) ++ ' ' :: ("1781".data ++ ',' :: " 123".data))] =
      [String.mk (('H' :: "egel".data) ++ ' ' :: "1977".data),
       String.mk (('K' :: "ant".data) ++ ' ' :: "1781".data)] :=
  c5_extraction_order_see_and_locator
    "before ".data " after".data "egel".data "1977".data [] [] "ant".data "1781".data
    " 123".data 'H' 'K'
    (by decide) (by decide) (by decide) (by decide)
    (by decide) (by decide) (by decide) (by decide)
    (by decide) (by decide)
    (by decide) (by decide) (by decide) (by decide)
    (by decide) (by decide)
    (by decide) (by decide) (by decide) (by decide)
    (by decide) (by decide)
    (by decide)

/-- A single-article document whose body is `)(`: the two counts agree. -/
def c6Doc : MdxDoc :=
  { path := "a.mdx"
    metadata := { title := "t", index_title := some "T", description := "d",
                  is_article := true, authors := none, editors := none,
                  contributors := none }
    markdown_content := ")("
    full_file_content := "" }

/-- Counterexample to claim C6: the body `)(` has equal counts of `(` and
`)`, yet `verify_mdx_files` raises the UnbalancedParentheses error, because
the scan also fails as soon as a prefix holds more `)` than `(`. -/
theorem c6_counterexample :
    c6Doc.markdown_content.data.count '(' = c6Doc.markdown_content.data.count ')' ∧
    verify_mdx_files [c6Doc] [] = .error (.unbalanced "a.mdx") :=
  ⟨by decide, by rfl⟩

/-- Claim C6 (amended): for an article document, `verify_mdx_files` raises
the UnbalancedParentheses error if and only if the body fails the running
balance scan: some prefix holds more `)` than `(`, or the total counts of
`(` and `)` differ.  The check precedes extraction: the error depends on
nothing but the body's characters.  (The claim's count-only condition is
necessary but not sufficient.) -/
theorem c6_unbalanced_iff (doc : MdxDoc) (entries : List Entry)
    (h : doc.metadata.is_article = true) :
    (∃ p, verify_mdx_files [doc] entries = .error (.unbalanced p)) ↔
      ¬ ((∀ n : Nat, (doc.markdown_content.data.take n).count ')' ≤
            (doc.markdown_content.data.take n).count '(') ∧
         doc.markdown_content.data.count '(' = doc.markdown_content.data.count ')') := by
  have hiff : check_parentheses_balance doc.markdown_content = true ↔
      ((∀ n : Nat, (doc.markdown_content.data.take n).count ')' ≤
          (doc.markdown_content.data.take n).count '(') ∧
        doc.markdown_content.data.count '(' = doc.markdown_content.data.count ')') := by
    have hx := checkParenAux_iff doc.markdown_content.data 0
    simpa [check_parentheses_balance] using hx
  constructor
  · rintro ⟨p, hp⟩
    intro hrhs
    have hbal : check_parentheses_balance doc.markdown_content = true := hiff.mpr hrhs
    revert hp
    unfold verify_mdx_files verifyLoop
    simp only [h, hbal, Bool.not_true, Bool.false_eq_true, if_false]
    cases hfmt : verify_citations_format
        (extract_citations_from_markdown doc.markdown_content) with
    | error e => simp [Except.map]
    | ok u =>
      cases hmat : match_citations_to_bibliography
          (create_citations_set (extract_citations_from_markdown doc.markdown_content))
          entries with
      | panicked => simp [Except.map]
      | unmatched un => simp [Except.map]
      | ok matched =>
        cases hdis : disambiguate_matched_citations matched with
        | none => simp [hdis, Except.map]
        | some dis =>
          cases hit : doc.metadata.index_title with
          | none => simp [hdis, hit, Except.map]
          | some t => simp [hdis, hit, Except.map, verifyLoop]
  · intro hrhs
    have hbal : check_parentheses_balance doc.markdown_content = false := by
      cases hb : check_parentheses_balance doc.markdown_content
      · rfl
      · exact absurd (hiff.mp hb) hrhs
    refine ⟨doc.path, ?_⟩
    unfold verify_mdx_files verifyLoop
    simp [h, hbal, Except.map]

/-- Witness for the amended C6 theorem at the `)(`-bodied article. -/
theorem c6_unbalanced_iff_witness :
    (∃ p, verify_mdx_files [c6Doc] [] = .error (.unbalanced p)) ↔
      ¬ ((∀ n : Nat, (c6Doc.markdown_content.data.take n).count ')' ≤
            (c6Doc.markdown_content.data.take n).count '(') ∧
         c6Doc.markdown_content.data.count '(' = c6Doc.markdown_content.data.count ')') :=
  c6_unbalanced_iff c6Doc [] (by rfl)

theorem verifyLoop_skip (entries : List Entry) (d : MdxDoc)
    (hd : d.metadata.is_article = false) :
    ∀ (docs1 docs2 : List MdxDoc) (acc : List ArticleFileData) (n : Nat),
      verifyLoop entries (docs1 ++ d :: docs2) acc n =
        verifyLoop entries (docs1 ++ docs2) acc n
  | [], docs2, acc, n => by
    show verifyLoop entries (d :: docs2) acc n = verifyLoop entries docs2 acc n
    simp [verifyLoop, hd]
  | doc :: docs1, docs2, acc, n => by
    simp only [List.cons_append, verifyLoop]
    cases ha : doc.metadata.is_article with
    | false =>
      simp only [ha, Bool.not_false, if_true]
      exact verifyLoop_skip entries d hd docs1 docs2 acc n
    | true =>
      simp only [ha, Bool.not_true, Bool.false_eq_true, if_false]
      cases hb : check_parentheses_balance doc.markdown_content with
      | false => simp only [hb, Bool.not_false, if_true]
      | true =>
        simp only [hb, Bool.not_true, Bool.false_eq_true, if_false]
        cases hfmt : verify_citations_format
            (extract_citations_from_markdown doc.markdown_content) with
        | error e => simp [hfmt]
        | ok u =>
          simp only [hfmt]
          cases hmat : match_citations_to_bibliography
              (create_citations_set (extract_citations_from_markdown
                doc.markdown_content)) entries with
          | panicked => simp [hmat]
          | unmatched un => simp [hmat]
          | ok matched =>
            simp only [hmat]
            cases hdis : disambiguate_matched_citations matched with
            | none => simp [hdis]
            | some dis =>
              simp only [hdis]
              cases hit : doc.metadata.index_title with
              | none => simp [hit]
              | some t =>
                simp only [hit]
                exact verifyLoop_skip entries d hd docs1 docs2 _ _

/-- Claim C10: a document whose front-matter has `is_article = false` is
skipped entirely by `verify_mdx_files`: no parenthesis check, extraction,
format check or matching touches it, it never causes an error, it is
excluded from the returned articles (whose list and count are those of the
remaining documents), and it still adds one to the files-verified total. -/
theorem c10_non_article_skipped (docs1 docs2 : List MdxDoc) (d : MdxDoc)
    (entries : List Entry) (h : d.metadata.is_article = false) :
    verify_mdx_files (docs1 ++ d :: docs2) entries =
      (verify_mdx_files (docs1 ++ docs2) entries).map
        (fun r => (r.1, r.2.1, r.2.2 + 1)) := by
  unfold verify_mdx_files
  rw [verifyLoop_skip entries d h docs1 docs2 [] 0]
  cases verifyLoop entries (docs1 ++ docs2) [] 0 with
  | error e => rfl
  | ok r =>
    have hlen : (docs1 ++ d :: docs2).length = (docs1 ++ docs2).length + 1 := by
      simp
      omega
    simp [Except.map, hlen]

/-- A non-article document whose body would fail every citation check. -/
def c10Doc : MdxDoc :=
  { path := "note.mdx"
    metadata := { title := "t", index_title := none, description := "d",
                  is_article := false, authors := none, editors := none,
                  contributors := none }
    markdown_content := ")( (Hegel)"
    full_file_content := "" }

/-- Witness for C10: the non-article document with unbalanced parentheses
and a malformed citation is skipped without error and counted. -/
theorem c10_non_article_skipped_witness :
    verify_mdx_files [c10Doc] [] =
      (verify_mdx_files [] []).map (fun r => (r.1, r.2.1, r.2.2 + 1)) :=
  c10_non_article_skipped [] [] c10Doc [] (by rfl)

/-- A book entry whose publisher field ends in two periods: rendering
appends `. `, producing a three-period run in the assembled block. -/
def c7Entry : MatchedCitationDisambiguated :=
  { citation_raw := "Hegel 1931"
    citation_author_date_disambiguated := "Hegel 1931"
    year_disambiguated := "1931"
    entry := { key := "hegel1931", entry_type := .book,
               author := some [{ name := "Hegel", given_name := "Georg" }],
               date := some (.typed (.atYear 1931)),
               title := some [.normal "T"],
               publisher := some [[.normal "P.."]],
               address := some [.normal "A"],
               journal := none, volume := none, number := none, pages := none,
               translator := none, doi := none } }

/-- Counterexample to claim C7: the rendered block for `c7Entry` holds the
three-period run `P...`; `replace("..", ".")` runs first and leaves `P..`,
which the later `replace("...", ".")`/`replace("....", ".")` passes cannot
touch — the output keeps a run of two periods. -/
theorem c7_counterexample :
    (generate_mdx_bibliography [c7Entry]).map (fun s => noDD s.data) = some false := by
  decide

/-- Claim C7 (amended): when the assembled bibliography block contains no
run of three or more periods, the post-processing of
`generate_mdx_bibliography` (the `replace("..", ".")` pass; the two longer
passes are then no-ops) returns a block with no run of two or more
consecutive periods.  Blocks with longer period runs can keep a double
period in the output. -/
theorem c7_no_double_period_without_triples
    (entries : List MatchedCitationDisambiguated) (prepared : List String)
    (hne : entries.isEmpty = false)
    (hp : entries_to_strings entries = some prepared)
    (h3 : noDDD (rawBlock prepared).data = true) :
    generate_mdx_bibliography entries =
      some (String.mk (collapse2 (rawBlock prepared).data)) ∧
    noDD (String.mk (collapse2 (rawBlock prepared).data)).data = true := by
  have h2 : noDD (collapse2 (rawBlock prepared).data) = true := noDD_collapse2 _ h3
  have h3id : collapse3 (collapse2 (rawBlock prepared).data) =
      collapse2 (rawBlock prepared).data := collapse3_id _ h2
  have h4id : collapse4 (collapse2 (rawBlock prepared).data) =
      collapse2 (rawBlock prepared).data := collapse4_id _ h2
  constructor
  · unfold generate_mdx_bibliography
    rw [if_neg (by simp [hne]), hp]
    simp [Option.bind, h3id, h4id]
  · exact h2

/-- A book entry rendering to a block free of multi-period runs. -/
def c7CleanEntry : MatchedCitationDisambiguated :=
  { citation_raw := "Hegel 1931"
    citation_author_date_disambiguated := "Hegel 1931"
    year_disambiguated := "1931"
    entry := { key := "hegel1931", entry_type := .book,
               author := some [{ name := "Hegel", given_name := "Georg" }],
               date := some (.typed (.atYear 1931)),
               title := some [.normal "T"],
               publisher := some [[.normal "P"]],
               address := some [.normal "A"],
               journal := none, volume := none, number := none, pages := none,
               translator := none, doi := none } }

/-- Witness for the amended C7 theorem at a clean one-book bibliography. -/
theorem c7_no_double_period_without_triples_witness :
    generate_mdx_bibliography [c7CleanEntry] =
      some (String.mk (collapse2
        (rawBlock ["Hegel, Georg. 1931. _T_. A: P."]).data)) ∧
    noDD (String.mk (collapse2
        (rawBlock ["Hegel, Georg. 1931. _T_. A: P."]).data)).data = true :=
  c7_no_double_period_without_triples [c7CleanEntry]
    ["Hegel, Georg. 1931. _T_. A: P."] (by decide) (by decide) (by decide)

/-- Counterexample to claim C8: `str::replace(".mdx", "")` removes every
occurrence of `.mdx` in the path, not only the trailing extension. -/
theorem c8_counterexample :
    generate_index_entry ⟨"docs/v1.mdx/foo.mdx", "T"⟩ none = "\n[T](docs/v1/foo)\n" ∧
    generate_index_entry ⟨"docs/v1.mdx/foo.mdx", "T"⟩ none ≠ "\n[T](docs/v1.mdx/foo)\n" := by
  refine ⟨by decide, by decide⟩

/-- An article carrying only the fields the index generator reads. -/
def mkArticle (path title : String) : ArticleFileData :=
  { path := path
    metadata := { title := title, index_title := title, description := "",
                  is_article := true, authors := none, editors := none,
                  contributors := none }
    markdown_content := ""
    entries_disambiguated := []
    full_file_content := "" }

/-- Claim C8 (amended): the index payload sorts the articles by index title
case-insensitively (here `alpha < Beta < bravo`), emits one `## {Letter}`
section per distinct uppercase first character in sorted order (`Beta` and
`bravo` share the `B` section), links every article through
`generate_index_entry`, and the configured prefix rewrite rewrites the link
target only, never the display title; the rewrite `(docs/src, articles)` on
path `docs/src/foo.mdx` yields link target `articles/foo`.  The `.mdx`
removal, however, is a replacement of every `.mdx` occurrence in the path,
not only of the trailing extension. -/
theorem c8_index_characterization (p1 p2 p3 : String)
    (rewriteOpt : Option (String × String)) :
    generate_index_to_file_payload
        [mkArticle p2 "Beta", mkArticle p3 "bravo", mkArticle p1 "alpha"]
        rewriteOpt =
      "\n_This index contains **" ++ toString 3 ++
        " articles**, organized alphabetically by title. Use the links below to jump to a section:_\n\n" ++
        "[A](#a) · [B](#b)" ++ "\n\n" ++
        ("\n## A\n" ++ generate_index_entry ⟨p1, "alpha"⟩ rewriteOpt ++
          ("\n## B\n" ++ generate_index_entry ⟨p2, "Beta"⟩ rewriteOpt ++
            ("" ++ generate_index_entry ⟨p3, "bravo"⟩ rewriteOpt ++ ""))) ∧
    (∀ title : String,
      generate_index_entry ⟨"docs/src/foo.mdx", title⟩ (some ("docs/src", "articles")) =
        "\n[" ++ title ++ "](" ++ "articles/foo" ++ ")\n") := by
  constructor
  · rfl
  · intro title
    rfl

end Prepyrus
